import Mathlib

/-
Verification of the FiniteAutomata module of the Lexer-Parser repository
(src/src/FiniteAutomata/FiniteAutomata.py) through a shallow embedding.

The embedding models:
  * terminal-token slots of automaton states (Python truthiness included),
  * the interval reduction set_to_intervals,
  * the RegexpTree data type, its printer, and the sre-token translator
    sre_to_regexp_tree (with fuel, since the rewriting recursion enlarges
    its input),
  * the NFA builder LexerNFA.add_rule over an arena of states,
  * the DFA builder LexerDFA.add_or_recover_lookout / add_rule / build over
    an arena of states, and the reader LexerDFA.recover_lookout.

Python dictionaries are modelled as association lists with
insert-or-replace assignment; Python object graphs (which contain cycles)
are modelled as arenas indexed by state id, matching the id counter of
FiniteAutomata.__init__.
-/

set_option maxHeartbeats 1000000

namespace LexPar

/-- Terminal token values storable in a state's terminal slot: a string
label, an int (the DFA builder stores the incoming lookout int there), or
the IGNORED sentinel object. -/
inductive Tok where
  | strT (s : String)
  | intT (n : Int)
  | ignored
deriving DecidableEq, Repr

/-- Python truthiness of the terminal_token attribute: None is falsy, the
empty string is falsy, the int 0 is falsy, the IGNORED object is truthy. -/
def truthy : Option Tok → Bool
  | none => false
  | some (Tok.strT s) => s != ""
  | some (Tok.intT n) => n != 0
  | some Tok.ignored => true

/-- Errors raised by the FiniteAutomata module. -/
inductive LexErr where
  | nodeIsNotTerminalState
  | lookoutMustBeSingleCharacter
  | lookoutTupleMissFormated
  | unrecognizedLookoutFormat
deriving DecidableEq, Repr

/-- FiniteAutomata.terminal_exists: true iff the terminal_token attribute
is truthy. -/
def terminal_exists (t : Option Tok) : Bool := truthy t

/-- FiniteAutomata.terminal_is_ignored: identity test against IGNORED. -/
def terminal_is_ignored (t : Option Tok) : Bool := t = some Tok.ignored

/-- FiniteAutomata.set_terminal_to_ignored: set the slot to IGNORED unless
the current value is truthy. -/
def set_terminal_to_ignored (t : Option Tok) : Option Tok :=
  if truthy t then t else some Tok.ignored

/-- FiniteAutomata.set_terminal_token: when no terminal exists (slot falsy),
a None argument routes to set_terminal_to_ignored and any other argument is
assigned; when a terminal exists the call is a no-op. -/
def set_terminal_token (cur : Option Tok) (arg : Option Tok) : Option Tok :=
  if terminal_exists cur then cur
  else
    match arg with
    | none => set_terminal_to_ignored cur
    | some tok => some tok

/-- FiniteAutomata.get_terminal_token: raises NodeIsNotTerminalState when no
terminal exists, returns None for IGNORED, else the stored token. -/
def get_terminal_token (t : Option Tok) : Except LexErr (Option Tok) :=
  if terminal_exists t then
    if terminal_is_ignored t then Except.ok none else Except.ok t
  else
    Except.error LexErr.nodeIsNotTerminalState

/-- Sweep loop of set_to_intervals: the sorted tail is consumed one value at
a time; a value equal to max+1 extends the open interval, any other value
closes it; the source's float('inf') sentinel corresponds to the nil case,
which flushes the last interval. -/
def set_to_intervals_go : List ℕ → ℕ → ℕ → List (ℕ × ℕ)
  | [], mn, mx => [(mn, mx)]
  | a :: rest, mn, mx =>
    if a = mx + 1 then set_to_intervals_go rest mn (mx + 1)
    else (mn, mx) :: set_to_intervals_go rest a a

/-- Dispatch on the sorted list: the empty set returns the empty list,
otherwise the sweep starts with min = max = the least value. -/
def set_to_intervals_aux : List ℕ → List (ℕ × ℕ)
  | [] => []
  | a :: rest => set_to_intervals_go rest a a

/-- set_to_intervals: sort the finite set ascending and sweep, merging runs
of consecutive values into closed intervals. -/
def set_to_intervals (s : Finset ℕ) : List (ℕ × ℕ) :=
  set_to_intervals_aux (s.sort (· ≤ ·))

theorem chain'_lt_head {x : ℕ} {l : List ℕ} (h : List.Chain' (· < ·) (x :: l)) :
    ∀ y ∈ l, x < y := by
  induction l generalizing x with
  | nil => intro y hy; cases hy
  | cons a rest ih =>
    intro y hy
    rcases List.mem_cons.mp hy with rfl | hy'
    · exact (List.chain'_cons.mp h).1
    · exact lt_trans (List.chain'_cons.mp h).1 (ih (List.chain'_cons.mp h).2 y hy')

theorem set_to_intervals_go_fst (l : List ℕ) :
    ∀ mn mx : ℕ, ∀ p ∈ set_to_intervals_go l mn mx, p.1 = mn ∨ p.1 ∈ l := by
  induction l with
  | nil =>
    intro mn mx p hp
    simp only [set_to_intervals_go, List.mem_singleton] at hp
    exact Or.inl (by rw [hp])
  | cons a rest ih =>
    intro mn mx p hp
    simp only [set_to_intervals_go] at hp
    split_ifs at hp with heq
    · rcases ih mn (mx + 1) p hp with h1 | h1
      · exact Or.inl h1
      · exact Or.inr (List.mem_cons_of_mem _ h1)
    · rcases List.mem_cons.mp hp with rfl | hp'
      · exact Or.inl rfl
      · rcases ih a a p hp' with h1 | h1
        · exact Or.inr (h1 ▸ List.mem_cons_self a rest)
        · exact Or.inr (List.mem_cons_of_mem _ h1)

theorem set_to_intervals_go_le (l : List ℕ) :
    ∀ mn mx : ℕ, mn ≤ mx → ∀ p ∈ set_to_intervals_go l mn mx, p.1 ≤ p.2 := by
  induction l with
  | nil =>
    intro mn mx hle p hp
    simp only [set_to_intervals_go, List.mem_singleton] at hp
    rw [hp]; exact hle
  | cons a rest ih =>
    intro mn mx hle p hp
    simp only [set_to_intervals_go] at hp
    split_ifs at hp with heq
    · exact ih mn (mx + 1) (by omega) p hp
    · rcases List.mem_cons.mp hp with rfl | hp'
      · exact hle
      · exact ih a a le_rfl p hp'

theorem set_to_intervals_go_mem (l : List ℕ) :
    ∀ mn mx x : ℕ, mn ≤ mx →
      ((∃ p ∈ set_to_intervals_go l mn mx, p.1 ≤ x ∧ x ≤ p.2) ↔
        (mn ≤ x ∧ x ≤ mx) ∨ x ∈ l) := by
  induction l with
  | nil =>
    intro mn mx x hle
    simp [set_to_intervals_go]
  | cons a rest ih =>
    intro mn mx x hle
    simp only [set_to_intervals_go]
    split_ifs with heq
    · rw [ih mn (mx + 1) x (by omega), List.mem_cons]
      constructor
      · rintro (⟨h1, h2⟩ | hB)
        · rcases Nat.lt_or_ge x (mx + 1) with h3 | h3
          · exact Or.inl ⟨h1, by omega⟩
          · exact Or.inr (Or.inl (by omega))
        · exact Or.inr (Or.inr hB)
      · rintro (⟨h1, h2⟩ | h | hB)
        · exact Or.inl ⟨h1, by omega⟩
        · exact Or.inl ⟨by omega, by omega⟩
        · exact Or.inr hB
    · constructor
      · rintro ⟨p, hp, hx1, hx2⟩
        rcases List.mem_cons.mp hp with rfl | hp'
        · exact Or.inl ⟨hx1, hx2⟩
        · rcases (ih a a x le_rfl).mp ⟨p, hp', hx1, hx2⟩ with ⟨h1, h2⟩ | h1
          · exact Or.inr (List.mem_cons.mpr (Or.inl (by omega)))
          · exact Or.inr (List.mem_cons_of_mem _ h1)
      · rintro (⟨h1, h2⟩ | hmem)
        · exact ⟨(mn, mx), List.mem_cons_self _ _, h1, h2⟩
        · rcases List.mem_cons.mp hmem with h1 | hmem'
          · obtain ⟨p, hp, hx⟩ := (ih a a x le_rfl).mpr (Or.inl ⟨by omega, by omega⟩)
            exact ⟨p, List.mem_cons_of_mem _ hp, hx⟩
          · obtain ⟨p, hp, hx⟩ := (ih a a x le_rfl).mpr (Or.inr hmem')
            exact ⟨p, List.mem_cons_of_mem _ hp, hx⟩

theorem set_to_intervals_go_pairwise (l : List ℕ) :
    ∀ mn mx : ℕ, List.Chain' (· < ·) (mx :: l) →
      List.Pairwise (fun p q : ℕ × ℕ => p.2 + 1 < q.1) (set_to_intervals_go l mn mx) := by
  induction l with
  | nil => intro mn mx _; simp [set_to_intervals_go]
  | cons a rest ih =>
    intro mn mx h
    have hmxa : mx < a := (List.chain'_cons.mp h).1
    have hrest : List.Chain' (· < ·) (a :: rest) := (List.chain'_cons.mp h).2
    simp only [set_to_intervals_go]
    split_ifs with heq
    · exact ih mn (mx + 1) (heq ▸ hrest)
    · refine List.Pairwise.cons ?_ (ih a a hrest)
      intro p hp
      rcases set_to_intervals_go_fst rest a a p hp with h1 | h1
      · omega
      · have := chain'_lt_head hrest p.1 h1
        omega

/-- Claim C5: for every finite set S of code points, set_to_intervals
returns a sorted list of closed, pairwise disjoint and non-adjacent
intervals whose union is exactly S, and the empty set yields the empty
list. Sortedness, disjointness and non-adjacency are captured together by
the pairwise gap condition: each interval ends at least two below where any
later interval starts. -/
theorem set_to_intervals_correct (s : Finset ℕ) :
    (∀ p ∈ set_to_intervals s, p.1 ≤ p.2) ∧
    List.Pairwise (fun p q : ℕ × ℕ => p.2 + 1 < q.1) (set_to_intervals s) ∧
    (∀ x : ℕ, (∃ p ∈ set_to_intervals s, p.1 ≤ x ∧ x ≤ p.2) ↔ x ∈ s) ∧
    set_to_intervals (∅ : Finset ℕ) = [] := by
  have hempty : set_to_intervals (∅ : Finset ℕ) = [] := by
    simp [set_to_intervals, Finset.sort_empty, set_to_intervals_aux]
  have hunfold : set_to_intervals s = set_to_intervals_aux (s.sort (· ≤ ·)) := rfl
  rcases hsort : s.sort (· ≤ ·) with _ | ⟨a, rest⟩
  · have hnil : set_to_intervals s = [] := by rw [hunfold, hsort]; rfl
    refine ⟨?_, ?_, ?_, hempty⟩
    · intro p hp; rw [hnil] at hp; cases hp
    · rw [hnil]; exact List.Pairwise.nil
    · intro x
      rw [hnil]
      constructor
      · rintro ⟨p, hp, _⟩; cases hp
      · intro hx
        have := (Finset.mem_sort (α := ℕ) (· ≤ ·)).mpr hx
        rw [hsort] at this
        cases this
  · have hgo : set_to_intervals s = set_to_intervals_go rest a a := by
      rw [hunfold, hsort]; rfl
    have hsorted : List.Chain' (· < ·) (a :: rest) := by
      have := Finset.sort_sorted_lt s
      rw [hsort] at this
      exact this.chain'
    refine ⟨?_, ?_, ?_, hempty⟩
    · rw [hgo]; exact set_to_intervals_go_le rest a a le_rfl
    · rw [hgo]; exact set_to_intervals_go_pairwise rest a a hsorted
    · intro x
      rw [hgo, set_to_intervals_go_mem rest a a x le_rfl]
      have hmem : x ∈ s ↔ x ∈ a :: rest := by
        rw [← hsort]; exact (Finset.mem_sort (α := ℕ) (· ≤ ·)).symm
      rw [hmem, List.mem_cons]
      constructor
      · rintro (⟨h1, h2⟩ | h1)
        · exact Or.inl (by omega)
        · exact Or.inr h1
      · rintro (h1 | h1)
        · exact Or.inl (by omega)
        · exact Or.inr h1

/-- Claim C10: a state assigned a falsy token label (empty string, int 0)
via set_terminal_token keeps the label in the slot, yet terminal_exists
reports false, get_terminal_token raises NodeIsNotTerminalState, and a
later set_terminal_token with a different token overwrites the slot. -/
theorem falsy_terminal_token_behaviour (cur : Option Tok) (tok : Tok)
    (hcur : truthy cur = false) (htok : truthy (some tok) = false) :
    set_terminal_token cur (some tok) = some tok ∧
    terminal_exists (some tok) = false ∧
    get_terminal_token (some tok) = Except.error LexErr.nodeIsNotTerminalState ∧
    ∀ tok' : Tok, tok' ≠ tok → set_terminal_token (some tok) (some tok') = some tok' := by
  refine ⟨?_, htok, ?_, ?_⟩
  · simp [set_terminal_token, terminal_exists, hcur]
  · simp [get_terminal_token, terminal_exists, htok]
  · intro tok' _
    simp [set_terminal_token, terminal_exists, htok]

/-- Concrete witness for claim C10: the empty-string label on a fresh
state. -/
theorem falsy_terminal_token_behaviour_witness :
    set_terminal_token none (some (Tok.strT "")) = some (Tok.strT "") ∧
    terminal_exists (some (Tok.strT "")) = false ∧
    get_terminal_token (some (Tok.strT "")) =
      Except.error LexErr.nodeIsNotTerminalState ∧
    ∀ tok' : Tok, tok' ≠ Tok.strT "" →
      set_terminal_token (some (Tok.strT "")) (some tok') = some tok' :=
  falsy_terminal_token_behaviour none (Tok.strT "") (by decide) (by decide)

/-- Structural tokens of the external sre_parse tokenizer, as consumed by
sre_to_regexp_tree and LexerDFA.add_or_recover_lookout. maxRepeat carries
plain naturals; sre encodes an unbounded maximum as the large constant
MAXREPEAT, which the source only ever compares against the cutoff. An
unrecognized tag (the source's silently ignored case) is kept abstract as
`unknown`; the anchor tag family ('at') gets its own constructor since the
source names it explicitly. -/
inductive SreTok where
  | literal (n : ℕ)
  | range (mn mx : ℕ)
  | inTok (elems : List SreTok)
  | maxRepeat (mn mx : ℕ) (sub : List SreTok)
  | branch (alts : List (List SreTok))
  | subpattern (sub : List SreTok)
  | atTok
  | unknown (tag : String)
deriving Repr

/-- sre_parse's MAXREPEAT constant, standing for an unbounded repetition
maximum. -/
def MAXREPEAT : ℕ := 4294967295

/-- RegexpTree: the normalized regexp AST of the source. A Python None
subtree is an absent Option. -/
inductive RegexpTree where
  | single (mn mx : ℕ) (next : Option RegexpTree)
  | union (fst snd next : Option RegexpTree)
  | kleene (pattern next : Option RegexpTree)
deriving Repr

/-- sre_list_to_set: collect the code points of a list of int, 'literal',
'in' and 'range' tokens; tokens of any other shape contribute nothing. -/
def sre_list_to_set : List SreTok → Finset ℕ
  | [] => ∅
  | t :: rest =>
    (match t with
     | SreTok.literal n => {n}
     | SreTok.inTok elems => sre_list_to_set elems
     | SreTok.range mn mx => Finset.Icc mn mx
     | _ => ∅) ∪ sre_list_to_set rest

/-- sre_list_to_interval: reduce the collected code points to intervals. -/
def sre_list_to_interval (toks : List SreTok) : List (ℕ × ℕ) :=
  set_to_intervals (sre_list_to_set toks)

/-- Call descriptor for the translator's three mutually recursive source
functions, fused into the single fueled function transGo so the recursion
is structural on the fuel (and therefore computes by kernel reduction):
main is sre_to_regexp_tree, ivUnion is make_regexp_intervals_union after
its interval conversion (the source's already_in_intervals=True re-entry
passes the raw interval list), sreUnion is make_regexp_sre_union. -/
inductive TransCall where
  | main (toks : List SreTok) (m : ℕ)
  | ivUnion (ivs : List (ℕ × ℕ)) (next : List SreTok) (m : ℕ)
  | sreUnion (alts : List (List SreTok)) (next : List SreTok) (m : ℕ)

/-- Fused translator. A none result means the fuel ran out; some t is the
Python return value (t itself an Option, since the source returns None
both for the empty stream and for the fall-through on 'at'/unrecognized
tags; no raise statement is reachable in these three source functions).
The ℕ component m of each call is max_handled_repeat; the source lets it
default to 100 on several recursive calls (literal/range tails, the kleene
continuation, subpattern bodies), which is modelled by passing the literal
100 exactly where the source omits the keyword. -/
def transGo : ℕ → TransCall → Option (Option RegexpTree)
  | 0, _ => none
  | fuel + 1, c =>
    match c with
    | TransCall.main [] _ => some none
    | TransCall.main (tok :: tail) m =>
      match tok with
      | SreTok.literal n =>
        (transGo fuel (TransCall.main tail 100)).map
          (fun nxt => some (RegexpTree.single n n nxt))
      | SreTok.range mn mx =>
        (transGo fuel (TransCall.main tail 100)).map
          (fun nxt => some (RegexpTree.single mn mx nxt))
      | SreTok.inTok elems =>
        transGo fuel (TransCall.ivUnion (sre_list_to_interval elems) tail m)
      | SreTok.maxRepeat mn mx sub =>
        if 0 < mn then
          transGo fuel (TransCall.main
            ((List.replicate mn sub).flatten ++
              [SreTok.maxRepeat 0 (if mx ≤ m then mx - mn else mx) sub] ++ tail) m)
        else if 1 ≤ mx ∧ mx ≤ m then
          transGo fuel (TransCall.main
            (SreTok.branch [[SreTok.maxRepeat 0 (mx - 1) sub],
              sub ++ [SreTok.maxRepeat 0 (mx - 1) sub]] :: tail) m)
        else if mx = 0 then
          transGo fuel (TransCall.main tail m)
        else
          match transGo fuel (TransCall.main sub m), transGo fuel (TransCall.main tail 100) with
          | some pat, some nxt => some (some (RegexpTree.kleene pat nxt))
          | _, _ => none
      | SreTok.branch alts => transGo fuel (TransCall.sreUnion alts tail m)
      | SreTok.subpattern sub => transGo fuel (TransCall.main (sub ++ tail) 100)
      | SreTok.atTok => some none
      | SreTok.unknown _ => some none
    | TransCall.ivUnion [] _ _ => some none
    | TransCall.ivUnion [(mn, mx)] next m =>
      (transGo fuel (TransCall.main next m)).map
        (fun nxt => some (RegexpTree.single mn mx nxt))
    | TransCall.ivUnion ((mn, mx) :: iv :: rest) next m =>
      match transGo fuel (TransCall.ivUnion (iv :: rest) [] m),
          transGo fuel (TransCall.main next m) with
      | some tailTree, some nextTree =>
        some (some (RegexpTree.union (some (RegexpTree.single mn mx none)) tailTree nextTree))
      | _, _ => none
    | TransCall.sreUnion [] _ _ => some none
    | TransCall.sreUnion [alt] _ m => transGo fuel (TransCall.main alt m)
    | TransCall.sreUnion (alt :: alt' :: rest) next m =>
      match transGo fuel (TransCall.main alt m),
          transGo fuel (TransCall.sreUnion (alt' :: rest) [] m),
          transGo fuel (TransCall.main next m) with
      | some fstB, some sndB, some nextB =>
        match fstB, sndB with
        | none, none => some nextB
        | _, _ => some (some (RegexpTree.union fstB sndB nextB))
      | _, _, _ => none

/-- sre_to_regexp_tree over a token list, with fuel. -/
def sre_to_regexp_tree (fuel : ℕ) (toks : List SreTok) (m : ℕ) : Option (Option RegexpTree) :=
  transGo fuel (TransCall.main toks m)

/-- make_regexp_intervals_union, with fuel, after interval conversion. -/
def make_regexp_intervals_union (fuel : ℕ) (ivs : List (ℕ × ℕ)) (next : List SreTok) (m : ℕ) :
    Option (Option RegexpTree) :=
  transGo fuel (TransCall.ivUnion ivs next m)

/-- make_regexp_sre_union: reduce a list of alternatives pairwise into a
union chain; the source attaches the continuation only at the outermost
union, drops it entirely on a single-alternative list, and collapses to
the continuation when both branches are empty. -/
def make_regexp_sre_union (fuel : ℕ) (alts : List (List SreTok)) (next : List SreTok) (m : ℕ) :
    Option (Option RegexpTree) :=
  transGo fuel (TransCall.sreUnion alts next m)

/-- Node count of an optional RegexpTree; the fuel (first argument) only
bounds the traversal depth so the recursion is structural, and any fuel
at least the tree's depth returns the exact count. -/
def treeSizeF : ℕ → Option RegexpTree → ℕ
  | 0, _ => 0
  | _ + 1, none => 0
  | fuel + 1, some (RegexpTree.single _ _ next) => 1 + treeSizeF fuel next
  | fuel + 1, some (RegexpTree.union fst snd next) =>
    1 + treeSizeF fuel fst + treeSizeF fuel snd + treeSizeF fuel next
  | fuel + 1, some (RegexpTree.kleene pattern next) =>
    1 + treeSizeF fuel pattern + treeSizeF fuel next

/-- Counterexample to claim C3 as stated: for min = 0, max = 2 and a
single-literal sub-stream, the translated tree's top node is a union whose
branches are BOTH present (the zero-to-one-repeats tree and one more copy
of sub followed by the zero-to-one-repeats tree); it is not an optional
choice with one branch absent, in either orientation. -/
theorem bounded_repeat_not_optional_cex :
    (sre_to_regexp_tree 40 [SreTok.maxRepeat 0 2 [SreTok.literal 97]] 100 =
      some (some (RegexpTree.union
        (some (RegexpTree.union none (some (RegexpTree.single 97 97 none)) none))
        (some (RegexpTree.single 97 97
          (some (RegexpTree.union none (some (RegexpTree.single 97 97 none)) none))))
        none))) ∧
    (∀ x nxt : Option RegexpTree,
      sre_to_regexp_tree 40 [SreTok.maxRepeat 0 2 [SreTok.literal 97]] 100 ≠
        some (some (RegexpTree.union x none nxt))) ∧
    (∀ x nxt : Option RegexpTree,
      sre_to_regexp_tree 40 [SreTok.maxRepeat 0 2 [SreTok.literal 97]] 100 ≠
        some (some (RegexpTree.union none x nxt))) := by
  refine ⟨rfl, ?_, ?_⟩ <;>
  · intro x nxt h
    rw [show sre_to_regexp_tree 40 [SreTok.maxRepeat 0 2 [SreTok.literal 97]] 100 =
      some (some (RegexpTree.union
        (some (RegexpTree.union none (some (RegexpTree.single 97 97 none)) none))
        (some (RegexpTree.single 97 97
          (some (RegexpTree.union none (some (RegexpTree.single 97 97 none)) none))))
        none)) from rfl] at h
    simp at h

/-- Claim C3 (amended): for min = 0 and 1 ≤ max ≤ max_handled_repeat, the
translator rewrites Repeat(0,max,sub) into a branch between
Repeat(0,max−1,sub) alone and one more copy of sub followed by
Repeat(0,max−1,sub) (not "one more copy or nothing"), bottoming out at
max = 0; consequently the tree size roughly doubles per unit of max
(2^(max+1) − 2 nodes for a single-literal sub: 0, 2, 6, 14, 30, 62 for
max = 0..5), exponential rather than linear growth. -/
theorem bounded_repeat_rewrite (fuel m mx : ℕ) (sub tail : List SreTok)
    (h1 : 1 ≤ mx) (h2 : mx ≤ m) :
    (sre_to_regexp_tree (fuel + 1) (SreTok.maxRepeat 0 mx sub :: tail) m =
      sre_to_regexp_tree fuel
        (SreTok.branch [[SreTok.maxRepeat 0 (mx - 1) sub],
          sub ++ [SreTok.maxRepeat 0 (mx - 1) sub]] :: tail) m) ∧
    (sre_to_regexp_tree 60 [SreTok.maxRepeat 0 0 [SreTok.literal 97]] 100).map (treeSizeF 60)
      = some 0 ∧
    (sre_to_regexp_tree 60 [SreTok.maxRepeat 0 1 [SreTok.literal 97]] 100).map (treeSizeF 60)
      = some 2 ∧
    (sre_to_regexp_tree 60 [SreTok.maxRepeat 0 2 [SreTok.literal 97]] 100).map (treeSizeF 60)
      = some 6 ∧
    (sre_to_regexp_tree 60 [SreTok.maxRepeat 0 3 [SreTok.literal 97]] 100).map (treeSizeF 60)
      = some 14 ∧
    (sre_to_regexp_tree 60 [SreTok.maxRepeat 0 4 [SreTok.literal 97]] 100).map (treeSizeF 60)
      = some 30 ∧
    (sre_to_regexp_tree 60 [SreTok.maxRepeat 0 5 [SreTok.literal 97]] 100).map (treeSizeF 60)
      = some 62 := by
  refine ⟨?_, by decide, by decide, by decide, by decide, by decide, by decide⟩
  simp only [sre_to_regexp_tree, transGo]
  rw [if_neg (by omega : ¬ (0 : ℕ) < 0), if_pos ⟨h1, h2⟩]

/-- Witness for claim C3's amended theorem at fuel 39, max 2, a
single-literal sub-stream and an empty continuation. -/
theorem bounded_repeat_rewrite_witness :
    (sre_to_regexp_tree (39 + 1) (SreTok.maxRepeat 0 2 [SreTok.literal 97] :: []) 100 =
      sre_to_regexp_tree 39
        (SreTok.branch [[SreTok.maxRepeat 0 (2 - 1) [SreTok.literal 97]],
          [SreTok.literal 97] ++ [SreTok.maxRepeat 0 (2 - 1) [SreTok.literal 97]]] :: []) 100) ∧
    (sre_to_regexp_tree 60 [SreTok.maxRepeat 0 0 [SreTok.literal 97]] 100).map (treeSizeF 60)
      = some 0 ∧
    (sre_to_regexp_tree 60 [SreTok.maxRepeat 0 1 [SreTok.literal 97]] 100).map (treeSizeF 60)
      = some 2 ∧
    (sre_to_regexp_tree 60 [SreTok.maxRepeat 0 2 [SreTok.literal 97]] 100).map (treeSizeF 60)
      = some 6 ∧
    (sre_to_regexp_tree 60 [SreTok.maxRepeat 0 3 [SreTok.literal 97]] 100).map (treeSizeF 60)
      = some 14 ∧
    (sre_to_regexp_tree 60 [SreTok.maxRepeat 0 4 [SreTok.literal 97]] 100).map (treeSizeF 60)
      = some 30 ∧
    (sre_to_regexp_tree 60 [SreTok.maxRepeat 0 5 [SreTok.literal 97]] 100).map (treeSizeF 60)
      = some 62 :=
  bounded_repeat_rewrite 39 100 2 [SreTok.literal 97] [] (by decide) (by decide)

/-- Counterexample to claim C7 as stated: on the stream [at, literal 'a']
the translator neither raises an error (these source functions have no
reachable raise) nor skips the anchor and translates the rest (which would
give the single-node tree): it returns Python None, discarding the
remainder. -/
theorem at_token_not_an_error_cex :
    sre_to_regexp_tree 40 [SreTok.atTok, SreTok.literal 97] 100 = some none ∧
    sre_to_regexp_tree 40 [SreTok.literal 97] 100 =
      some (some (RegexpTree.single 97 97 none)) ∧
    (some (none : Option RegexpTree) ≠
      some (some (RegexpTree.single 97 97 none))) := by
  refine ⟨rfl, rfl, by simp⟩

/-- Claim C7 (amended): a structural token the translator does not
recognize — the anchor tag 'at' or any unknown tag — makes
sre_to_regexp_tree return None silently, discarding the token and the
whole remainder of the stream; no error is raised. -/
theorem unrecognized_token_silently_dropped (fuel m : ℕ) (tail : List SreTok) :
    sre_to_regexp_tree (fuel + 1) (SreTok.atTok :: tail) m = some none ∧
    ∀ tag : String, sre_to_regexp_tree (fuel + 1) (SreTok.unknown tag :: tail) m = some none := by
  exact ⟨rfl, fun _ => rfl⟩

/-- Replace the i-th element of a list by f applied to it; out-of-range
indices leave the list unchanged. Models in-place mutation of one state of
the arena. -/
def updAt {α : Type} : List α → ℕ → (α → α) → List α
  | [], _, _ => []
  | a :: rest, 0, f => f a :: rest
  | a :: rest, n + 1, f => a :: updAt rest n f

/-- An NFA node: terminal slot and the ordered edge list (range lookout,
target id); the EMPTY lookout (-1,-1) is the epsilon edge. -/
structure NfaState where
  terminal_token : Option Tok
  next_states : List ((Int × Int) × ℕ)
deriving DecidableEq, Repr

/-- The NFA arena: position = state id, in creation order, matching the
source's global id counter. -/
abbrev NfaGraph := List NfaState

/-- Read a state of the NFA arena (valid ids only are ever used). -/
def nfaGet (g : NfaGraph) (i : ℕ) : NfaState := g.getD i ⟨none, []⟩

/-- FiniteAutomata.add_empty_transition: allocate a fresh state and append
an EMPTY-lookout edge from src to it. -/
def add_empty_transition (g : NfaGraph) (src : ℕ) : NfaGraph × ℕ :=
  let nid := g.length
  (updAt (g ++ [⟨none, []⟩]) src
    (fun st => { st with next_states := st.next_states ++ [((-1, -1), nid)] }), nid)

/-- FiniteAutomata.add_transition_range: allocate a fresh state and append
an edge labelled [mn,mx] from src to it. -/
def add_transition_range (g : NfaGraph) (src : ℕ) (mn mx : Int) : NfaGraph × ℕ :=
  let nid := g.length
  (updAt (g ++ [⟨none, []⟩]) src
    (fun st => { st with next_states := st.next_states ++ [((mn, mx), nid)] }), nid)

/-- FiniteAutomata.add_empty_transition_to_state: append an EMPTY-lookout
edge from src to the pre-existing state tgt. -/
def add_empty_transition_to_state (g : NfaGraph) (src tgt : ℕ) : NfaGraph :=
  updAt g src (fun st => { st with next_states := st.next_states ++ [((-1, -1), tgt)] })

/-- LexerNFA.add_rule: Thompson-style compilation of a RegexpTree from the
state self, returning (graph, first, last). The fuel only makes the
recursion structural (any fuel at least the tree depth succeeds). The
union arm reproduces the source faithfully: it compiles the two branches
from the fresh epsilon-reached first state and joins their accept states
into one new state, but it never compiles regexp.next — the union node's
continuation field is dropped. -/
def nfa_add_rule : ℕ → NfaGraph → ℕ → Option RegexpTree → Option (NfaGraph × ℕ × ℕ)
  | 0, _, _, _ => none
  | _ + 1, g, self, none => some (g, self, self)
  | fuel + 1, g, self, some t =>
    let fg := add_empty_transition g self
    let g1 := fg.1
    let first := fg.2
    match t with
    | RegexpTree.single mn mx next =>
      let gn := add_transition_range g1 first (Int.ofNat mn) (Int.ofNat mx)
      match nfa_add_rule fuel gn.1 gn.2 next with
      | some (g3, _, last) => some (g3, first, last)
      | none => none
    | RegexpTree.union fst snd _ =>
      match nfa_add_rule fuel g1 first fst with
      | some (g2, _, l1) =>
        match nfa_add_rule fuel g2 first snd with
        | some (g3, _, l2) =>
          let gl := add_empty_transition g3 l1
          some (add_empty_transition_to_state gl.1 l2 gl.2, first, gl.2)
        | none => none
      | none => none
    | RegexpTree.kleene pattern next =>
      match nfa_add_rule fuel g1 first pattern with
      | some (g2, s1, s2) =>
        let gs := add_empty_transition g2 s2
        let g3 := add_empty_transition_to_state gs.1 s2 s1
        let g4 := add_empty_transition_to_state g3 first gs.2
        match nfa_add_rule fuel g4 gs.2 next with
        | some (g5, _, last) => some (g5, first, last)
        | none => none
      | none => none

/-- Claim C2 is refuted by this evaluation (the code drops the union
continuation): compiling Union(Single a, Single b, next = Single c) from a
fresh start yields the seven-state graph below, in which the returned last
state is the joined epsilon state 6 with no outgoing transitions — the
continuation Single c was never compiled: no state carries a (99,99)
edge, and no state is allocated for it. -/
theorem nfa_union_drops_continuation :
    nfa_add_rule 10 [⟨none, []⟩] 0
      (some (RegexpTree.union (some (RegexpTree.single 97 97 none))
        (some (RegexpTree.single 98 98 none)) (some (RegexpTree.single 99 99 none)))) =
      some ([⟨none, [((-1, -1), 1)]⟩,
             ⟨none, [((-1, -1), 2), ((-1, -1), 4)]⟩,
             ⟨none, [((97, 97), 3)]⟩,
             ⟨none, [((-1, -1), 6)]⟩,
             ⟨none, [((98, 98), 5)]⟩,
             ⟨none, [((-1, -1), 6)]⟩,
             ⟨none, []⟩], 1, 6) ∧
    ((nfa_add_rule 10 [⟨none, []⟩] 0
      (some (RegexpTree.union (some (RegexpTree.single 97 97 none))
        (some (RegexpTree.single 98 98 none)) (some (RegexpTree.single 99 99 none))))).elim
      false
      (fun r => r.1.all (fun st => st.next_states.all (fun e => e.1 != (99, 99))))) = true := by
  exact ⟨rfl, by decide⟩

/-- Keys of a DFA state's transition dict: the builder stores plain ints
(code points and the -1 default sentinel); the reader recover_lookout may
also look a ('literal', n) tuple up as a key, and a tuple key never equals
an int key. -/
inductive DKey where
  | intK (n : Int)
  | litK (n : Int)
deriving DecidableEq, Repr

/-- A DFA node. next_states is the transition dict (the source initializes
a list but every LexerDFA access is a dict access). current_state is
modelled from the spec: the clique-linking step of the source reads
target.current_state, an attribute no code under src/ defines; per the
spec's clique-linking description (interconnect the layer's states, each
state standing for one code point of the repeated alphabet) it is the code
point by which the state is reached, fixed at creation. -/
structure DfaState where
  terminal_token : Option Tok
  current_state : Int
  next_states : List (DKey × ℕ)
deriving DecidableEq, Repr

/-- The DFA arena: position = state id, in creation order. -/
abbrev DfaGraph := List DfaState

/-- Read a state of the DFA arena (valid ids only are ever used). -/
def dfaGet (g : DfaGraph) (i : ℕ) : DfaState := g.getD i ⟨none, 0, []⟩

/-- LexerDFA node creation automata_class(lookout): the incoming lookout
int is passed as the constructor's terminal_token positional argument, and
recorded as the state's code point. -/
def dfaNew (k : Int) : DfaState := ⟨some (Tok.intT k), k, []⟩

/-- First-match association lookup: the dict read d.get(k). -/
def dlookup : List (DKey × ℕ) → DKey → Option ℕ
  | [], _ => none
  | (k', v) :: rest, k => if k' = k then some v else dlookup rest k

/-- Dict assignment d[k] = v: replace the value in place if the key is
present, else append the new binding. -/
def dinsert : List (DKey × ℕ) → DKey → ℕ → List (DKey × ℕ)
  | [], k, v => [(k, v)]
  | (k', v') :: rest, k, v =>
    if k' = k then (k', v) :: rest else (k', v') :: dinsert rest k v

/-- Int-keyed association lookup, for the local lookout_nodes dicts. -/
def dlookupI : List (Int × ℕ) → Int → Option ℕ
  | [], _ => none
  | (k', v) :: rest, k => if k' = k then some v else dlookupI rest k

/-- Int-keyed dict assignment, for the local lookout_nodes dicts. -/
def dinsertI : List (Int × ℕ) → Int → ℕ → List (Int × ℕ)
  | [], k, v => [(k, v)]
  | (k', v') :: rest, k, v =>
    if k' = k then (k', v) :: rest else (k', v') :: dinsertI rest k v

/-- Modelled from the spec: lookout_exists is called throughout
add_or_recover_lookout but not defined under src/; per the spec's reuse
policy ("reuse the state's existing transition for that code point if
present") it tests whether the state's dict holds the int key. -/
def lookout_exists (st : DfaState) (k : Int) : Bool :=
  (dlookup st.next_states (DKey.intK k)).isSome

/-- The write self.next_states[k] = tgt on state src of the arena. -/
def dfaSetTrans (g : DfaGraph) (src : ℕ) (k : Int) (tgt : ℕ) : DfaGraph :=
  updAt g src (fun st => { st with next_states := dinsert st.next_states (DKey.intK k) tgt })

/-- get_ascii_list_from_rse_in: collect the code points of the 'range' and
'literal' members of an 'in' token into a set and return it as a list.
Python's list(set) order is unspecified; the embedding returns ascending
order. -/
def get_ascii_list_from_rse_in (elems : List SreTok) : List Int :=
  ((elems.foldl (fun acc t =>
    match t with
    | SreTok.range mn mx => acc ∪ Finset.Icc mn mx
    | SreTok.literal n => insert n acc
    | _ => acc) (∅ : Finset ℕ)).sort (· ≤ ·)).map Int.ofNat

/-- get_formated_lookouts on a single sre token: a 'literal' gives its code
point, an 'in' gives its collected code points, and any other tuple-shaped
token falls through with the empty list (the source raises only on
non-tuple, non-str, non-int, non-list arguments, which the sre token type
cannot produce). -/
def get_formated_lookouts : SreTok → List Int
  | SreTok.literal n => [Int.ofNat n]
  | SreTok.inTok elems => get_ascii_list_from_rse_in elems
  | _ => []

/-- get_formated_lookouts on a token list: concatenate per-token results. -/
def get_formated_lookouts_list (toks : List SreTok) : List Int :=
  (toks.map get_formated_lookouts).flatten

/-- The dict comprehension of the source,
lookout_nodes = one fresh node per lookout in the list: every element
allocates a node (duplicates allocate again) and the dict keeps the last
allocation per key at the key's first position. -/
def mkLookoutNodes : DfaGraph → List Int → List (Int × ℕ) → DfaGraph × List (Int × ℕ)
  | g, [], acc => (g, acc)
  | g, k :: rest, acc => mkLookoutNodes (g ++ [dfaNew k]) rest (dinsertI acc k g.length)

/-- Inner loop of layer construction: for one node of the previous layer,
record a transition to the layer's shared node for every lookout the node
does not already have. -/
def attachOne (nodes : List (Int × ℕ)) : DfaGraph → ℕ → List Int → DfaGraph
  | g, _, [] => g
  | g, nid, k :: rest =>
    let g1 :=
      if lookout_exists (dfaGet g nid) k then g
      else
        match dlookupI nodes k with
        | some tgt => dfaSetTrans g nid k tgt
        | none => g
    attachOne nodes g1 nid rest

/-- Outer loop of layer construction over the previous layer's nodes. -/
def attachLayer (nodes : List (Int × ℕ)) (ks : List Int) : DfaGraph → List ℕ → DfaGraph
  | g, [] => g
  | g, nid :: rest => attachLayer nodes ks (attachOne nodes g nid ks) rest

/-- One iteration of the while loops of add_or_recover_lookout: allocate
the layer's lookout_nodes dict, attach the previous layer to it, and step
to the dict's values. -/
def layerStep (g : DfaGraph) (layer : List ℕ) (ks : List Int) : DfaGraph × List ℕ :=
  let gn := mkLookoutNodes g ks []
  (attachLayer gn.2 ks gn.1 layer, gn.2.map Prod.snd)

/-- n iterations of layer construction (the minimum-repetitions chain). -/
def layerChain : ℕ → DfaGraph → List ℕ → List Int → DfaGraph × List ℕ
  | 0, g, layer, _ => (g, layer)
  | n + 1, g, layer, ks =>
    let gl := layerStep g layer ks
    layerChain n gl.1 gl.2 ks

/-- n iterations of layer construction remembering every produced layer
(the terminal_layers accumulation of cases 3 and 4): returns the final
graph, the final layer, and the concatenation of all produced layers. -/
def layerChainCollect : ℕ → DfaGraph → List ℕ → List Int → DfaGraph × List ℕ × List ℕ
  | 0, g, layer, _ => (g, layer, [])
  | n + 1, g, layer, ks =>
    let gl := layerStep g layer ks
    let r := layerChainCollect n gl.1 gl.2 ks
    (r.1, r.2.1, gl.2 ++ r.2.2)

/-- Inner loop of clique-linking: link one node to every target of the
layer by the target's code point, unless a transition for that code point
already exists. -/
def cliqueLinkOne : DfaGraph → ℕ → List ℕ → DfaGraph
  | g, _, [] => g
  | g, nid, t :: rest =>
    let k := (dfaGet g t).current_state
    let g1 := if lookout_exists (dfaGet g nid) k then g else dfaSetTrans g nid k t
    cliqueLinkOne g1 nid rest

/-- Outer loop of clique-linking a layer with itself. -/
def cliqueLink : DfaGraph → List ℕ → List ℕ → DfaGraph
  | g, [], _ => g
  | g, n :: rest, targets => cliqueLink (cliqueLinkOne g n targets) rest targets

/-- The empty-string node of cases 2 and 4: reuse the -1 transition's
target if present, else allocate a node for -1 and record the transition. -/
def ensureEmptyState (g : DfaGraph) (self : ℕ) : DfaGraph × ℕ :=
  if lookout_exists (dfaGet g self) (-1) then
    (g, (dlookup (dfaGet g self).next_states (DKey.intK (-1))).getD 0)
  else
    let nid := g.length
    (dfaSetTrans (g ++ [dfaNew (-1)]) self (-1) nid, nid)

/-- Case 2's loop: for every formated lookout, allocate a FULL fresh
lookout_nodes dict (the source rebuilds the dict comprehension inside the
loop, leaking the unused nodes), attach self to the chosen node if self
lacks the lookout, and remember the chosen node. -/
def case2Loop (ks : List Int) : DfaGraph → ℕ → List Int → DfaGraph × List ℕ
  | g, _, [] => (g, [])
  | g, self, fl :: rest =>
    let gn := mkLookoutNodes g ks []
    let chosen := (dlookupI gn.2 fl).getD 0
    let g2 :=
      if lookout_exists (dfaGet gn.1 self) fl then gn.1
      else dfaSetTrans gn.1 self fl chosen
    let r := case2Loop ks g2 self rest
    (r.1, chosen :: r.2)

/-- The non-repetition arm of add_or_recover_lookout: one fresh node per
missing lookout (no sharing dict here), returning self's transition target
for every lookout in order. -/
def addSingleLayer : DfaGraph → ℕ → List Int → DfaGraph × List ℕ
  | g, _, [] => (g, [])
  | g, self, fl :: rest =>
    let g1 :=
      if lookout_exists (dfaGet g self) fl then g
      else dfaSetTrans (g ++ [dfaNew fl]) self fl g.length
    let chosen := (dlookup (dfaGet g1 self).next_states (DKey.intK fl)).getD 0
    let r := addSingleLayer g1 self rest
    (r.1, chosen :: r.2)

/-- LexerDFA.add_or_recover_lookout on one sre token, from state self with
max_repeat_handled = mh: the four repetition cases (n-to-inf with
clique-linked final layer; 0-to-inf with the -1 empty node; n-to-m
collecting terminal layers; 0-to-m collecting terminal layers from
[self, empty]) and the plain single-layer case. Returns the new graph and
the source's next_states result list. -/
def add_or_recover_lookout (g : DfaGraph) (self : ℕ) (lookout : SreTok) (mh : ℕ) :
    DfaGraph × List ℕ :=
  match lookout with
  | SreTok.maxRepeat mn mx sub =>
    let ks := get_formated_lookouts_list sub
    if 0 < mn ∧ mh < mx then
      let r := layerChain mn g [self] ks
      (cliqueLink r.1 r.2 r.2, r.2)
    else if mn = 0 ∧ mh < mx then
      let re := ensureEmptyState g self
      let r := case2Loop ks re.1 self ks
      (cliqueLink r.1 r.2 r.2, r.2 ++ [re.2])
    else if 0 < mn ∧ mx ≤ mh then
      let r := layerChain mn g [self] ks
      let rc := layerChainCollect (mx - mn) r.1 r.2 ks
      (rc.1, r.2 ++ rc.2.2)
    else
      let re := ensureEmptyState g self
      let rc := layerChainCollect mx re.1 [self, re.2] ks
      (rc.1, rc.2.2)
  | tok => addSingleLayer g self (get_formated_lookouts tok)

/-- One frontier step of LexerDFA.add_rule: concatenate, over the frontier
states in order, the next_states returned by add_or_recover_lookout. -/
def stepStates (mh : ℕ) (tok : SreTok) : DfaGraph → List ℕ → DfaGraph × List ℕ
  | g, [] => (g, [])
  | g, s :: rest =>
    let r := add_or_recover_lookout g s tok mh
    let r2 := stepStates mh tok r.1 rest
    (r2.1, r.2 ++ r2.2)

/-- The frontier loop of LexerDFA.add_rule over the token stream. -/
def dfaFrontier (mh : ℕ) : DfaGraph → List ℕ → List SreTok → DfaGraph × List ℕ
  | g, frontier, [] => (g, frontier)
  | g, frontier, t :: rest =>
    let r := stepStates mh t g frontier
    dfaFrontier mh r.1 r.2 rest

/-- Tag every state of the final frontier through set_terminal_token. -/
def setTerminalAll (tok : Option Tok) : DfaGraph → List ℕ → DfaGraph
  | g, [] => g
  | g, i :: rest =>
    setTerminalAll tok
      (updAt g i (fun st =>
        { st with terminal_token := set_terminal_token st.terminal_token tok }))
      rest

/-- LexerDFA.add_rule at token-stream level (the tokenization itself is the
external sre_parse). -/
def dfa_add_rule_tokens (g : DfaGraph) (start : ℕ) (toks : List SreTok)
    (tok : Option Tok) (mh : ℕ) : DfaGraph :=
  let r := dfaFrontier mh g [start] toks
  setTerminalAll tok r.1 r.2

/-- LexerDFA.build over token-stream rules, with the class default
max_repeat_handled = 100. -/
def dfa_build (g : DfaGraph) (start : ℕ) : List (List SreTok × Option Tok) → DfaGraph
  | [] => g
  | (toks, tok) :: rest => dfa_build (dfa_add_rule_tokens g start toks tok 100) start rest

/-- Modelled from the spec: parse_regexp delegates to the external
sre_parse tokenizer, which is out of scope of src/; per the spec's
tokenizer interface a pattern of plain characters tokenizes to one Literal
token per character (all the concrete scenarios here need). -/
def parse_regexp_literal (pat : String) : List SreTok :=
  pat.data.map (fun c => SreTok.literal c.toNat)

/-- LexerDFA.build over (plain-literal pattern string, token) rules. -/
def dfa_build_str (g : DfaGraph) (start : ℕ) : List (String × Option Tok) → DfaGraph
  | [] => g
  | (pat, tok) :: rest =>
    dfa_build_str (dfa_add_rule_tokens g start (parse_regexp_literal pat) tok 100) start rest

/-- The freshly constructed LexerDFA() root: terminal None, no
transitions. -/
def dfaStart : DfaGraph := [⟨none, 0, []⟩]

/-- Python values that can sit inside a lookout tuple. -/
inductive PyVal where
  | pyStr (s : String)
  | pyInt (n : Int)
deriving DecidableEq, Repr

/-- Argument shapes accepted by LexerDFA.recover_lookout: a str, a pair
tuple, or an int. -/
inductive LookoutArg where
  | strA (s : String)
  | tupA (fst snd : PyVal)
  | intA (n : Int)
deriving DecidableEq, Repr

/-- format_char_to_ascii: ord of the character. -/
def format_char_to_ascii (c : Char) : Int := Int.ofNat c.toNat

/-- LexerDFA.recover_lookout: a one-character string converts to its code
point (an int key); a longer or empty string raises
LookoutMustBeSingleCharacter; a tuple must be ('literal', int) — which is
then itself used as the dict key — else LookoutTupleMissFormated; an int
is used directly. The lookup falls back on the -1 default key, and the
result is None when both lookups miss. -/
def recover_lookout (st : DfaState) (arg : LookoutArg) : Except LexErr (Option ℕ) :=
  let go := fun (k : DKey) =>
    Except.ok (match dlookup st.next_states k with
      | some t => some t
      | none => dlookup st.next_states (DKey.intK (-1)))
  match arg with
  | LookoutArg.strA s =>
    match s.data with
    | [c] => go (DKey.intK (format_char_to_ascii c))
    | _ => Except.error LexErr.lookoutMustBeSingleCharacter
  | LookoutArg.tupA f sd =>
    match f, sd with
    | PyVal.pyStr s', PyVal.pyInt n =>
      if s' = "literal" then go (DKey.litK n)
      else Except.error LexErr.lookoutTupleMissFormated
    | _, _ => Except.error LexErr.lookoutTupleMissFormated
  | LookoutArg.intA n => go (DKey.intK n)

theorem updAt_length {α : Type} (l : List α) (i : ℕ) (f : α → α) :
    (updAt l i f).length = l.length := by
  induction l generalizing i with
  | nil => rfl
  | cons a rest ih =>
    cases i with
    | zero => rfl
    | succ n => simp [updAt, ih]

theorem updAt_out {α : Type} (l : List α) (i : ℕ) (f : α → α) (h : l.length ≤ i) :
    updAt l i f = l := by
  induction l generalizing i with
  | nil => rfl
  | cons a rest ih =>
    cases i with
    | zero => simp at h
    | succ n =>
      simp only [List.length_cons] at h
      simp [updAt, ih n (by omega)]

theorem getD_updAt_eq {α : Type} (l : List α) (i : ℕ) (f : α → α) (d : α)
    (h : i < l.length) : (updAt l i f).getD i d = f (l.getD i d) := by
  induction l generalizing i with
  | nil => simp at h
  | cons a rest ih =>
    cases i with
    | zero => rfl
    | succ n =>
      simp only [List.length_cons] at h
      simpa [updAt] using ih n (by omega)

theorem getD_updAt_ne {α : Type} (l : List α) (i j : ℕ) (f : α → α) (d : α)
    (h : i ≠ j) : (updAt l i f).getD j d = l.getD j d := by
  induction l generalizing i j with
  | nil => rfl
  | cons a rest ih =>
    cases i with
    | zero =>
      cases j with
      | zero => exact absurd rfl h
      | succ m => rfl
    | succ n =>
      cases j with
      | zero => rfl
      | succ m => simpa [updAt] using ih n m (by omega)

theorem dlookup_dinsert_self (d : List (DKey × ℕ)) (k : DKey) (v : ℕ) :
    dlookup (dinsert d k v) k = some v := by
  induction d with
  | nil => simp [dinsert, dlookup]
  | cons p rest ih =>
    obtain ⟨k', v'⟩ := p
    by_cases hk : k' = k
    · simp [dinsert, dlookup, hk]
    · simp [dinsert, dlookup, hk, ih]

theorem dlookup_dinsert_ne (d : List (DKey × ℕ)) (k k' : DKey) (v : ℕ) (h : k' ≠ k) :
    dlookup (dinsert d k v) k' = dlookup d k' := by
  induction d with
  | nil =>
    have hne : ¬ k = k' := fun hh => h hh.symm
    simp [dinsert, dlookup, hne]
  | cons p rest ih =>
    obtain ⟨k0, v0⟩ := p
    by_cases hk : k0 = k
    · subst hk
      have hne : ¬ k0 = k' := fun hh => h hh.symm
      simp [dinsert, dlookup, hne]
    · simp only [dinsert, if_neg hk]
      by_cases hk' : k0 = k'
      · simp [dlookup, hk']
      · simp [dlookup, hk', ih]

theorem dlookup_eq_none_iff (d : List (DKey × ℕ)) (k : DKey) :
    dlookup d k = none ↔ k ∉ d.map Prod.fst := by
  induction d with
  | nil => simp [dlookup]
  | cons p rest ih =>
    obtain ⟨k', v'⟩ := p
    by_cases hk : k' = k
    · simp [dlookup, hk]
    · simp [dlookup, hk, ih, Ne.symm hk]

theorem dinsert_absent (d : List (DKey × ℕ)) (k : DKey) (v : ℕ)
    (h : dlookup d k = none) : dinsert d k v = d ++ [(k, v)] := by
  induction d with
  | nil => rfl
  | cons p rest ih =>
    obtain ⟨k', v'⟩ := p
    by_cases hk : k' = k
    · simp [dlookup, hk] at h
    · simp only [dlookup, if_neg hk] at h
      simp [dinsert, hk, ih h]

theorem dlookup_append_left (d d' : List (DKey × ℕ)) (k : DKey) (v : ℕ)
    (h : dlookup d k = some v) : dlookup (d ++ d') k = some v := by
  induction d with
  | nil => simp [dlookup] at h
  | cons p rest ih =>
    obtain ⟨k', v'⟩ := p
    by_cases hk : k' = k
    · simpa [dlookup, hk] using h
    · simp only [dlookup, if_neg hk] at h ⊢
      exact ih h

theorem dfaGet_append_lt (g : DfaGraph) (st : DfaState) (i : ℕ) (h : i < g.length) :
    dfaGet (g ++ [st]) i = dfaGet g i :=
  List.getD_append g [st] _ i h

theorem dfaGet_append_len (g : DfaGraph) (st : DfaState) :
    dfaGet (g ++ [st]) g.length = st := by
  simp [dfaGet, List.getD_append_right g [st] _ g.length le_rfl]

theorem dfaGet_out (g : DfaGraph) (i : ℕ) (h : g.length ≤ i) :
    dfaGet g i = ⟨none, 0, []⟩ :=
  List.getD_eq_default g _ h

/-- Determinism invariant of a DFA graph: every state's transition dict has
pairwise distinct keys, i.e. at most one target per concrete code point
and at most one -1 default transition. -/
def dfaDet (g : DfaGraph) : Prop :=
  ∀ i : ℕ, (((dfaGet g i).next_states.map Prod.fst).Nodup : Prop)

/-- How one construction step of add_or_recover_lookout relates a graph to
its extension: the arena only grows, determinism is preserved, existing
transition bindings are never rebound (reuse, never overwrite), terminal
and code-point fields of pre-existing states are untouched, and every
newly allocated state carries its creation code point as its terminal
token. -/
def DfaExtC (g g' : DfaGraph) : Prop :=
  g.length ≤ g'.length ∧
  (dfaDet g → dfaDet g') ∧
  (∀ i k v, dlookup (dfaGet g i).next_states k = some v →
    dlookup (dfaGet g' i).next_states k = some v) ∧
  (∀ i, i < g.length →
    (dfaGet g' i).terminal_token = (dfaGet g i).terminal_token ∧
    (dfaGet g' i).current_state = (dfaGet g i).current_state) ∧
  (∀ i, g.length ≤ i → i < g'.length →
    (dfaGet g' i).terminal_token = some (Tok.intT ((dfaGet g' i).current_state)))

theorem extC_refl (g : DfaGraph) : DfaExtC g g :=
  ⟨le_rfl, fun h => h, fun _ _ _ h => h, fun _ _ => ⟨rfl, rfl⟩,
    fun _ h1 h2 => absurd h2 (by omega)⟩

theorem extC_trans {g g' g'' : DfaGraph} (h1 : DfaExtC g g') (h2 : DfaExtC g' g'') :
    DfaExtC g g'' := by
  obtain ⟨l1, d1, b1, f1, n1⟩ := h1
  obtain ⟨l2, d2, b2, f2, n2⟩ := h2
  refine ⟨le_trans l1 l2, fun h => d2 (d1 h), fun i k v h => b2 i k v (b1 i k v h), ?_, ?_⟩
  · intro i hi
    obtain ⟨t2, c2⟩ := f2 i (lt_of_lt_of_le hi l1)
    obtain ⟨t1, c1⟩ := f1 i hi
    exact ⟨t2.trans t1, c2.trans c1⟩
  · intro i hi hi'
    by_cases hmid : i < g'.length
    · obtain ⟨t2, c2⟩ := f2 i hmid
      rw [t2, c2]
      exact n1 i hi hmid
    · exact n2 i (by omega) hi'

theorem extC_append (g : DfaGraph) (k : Int) : DfaExtC g (g ++ [dfaNew k]) := by
  refine ⟨by simp, ?_, ?_, ?_, ?_⟩
  · intro hdet i
    rcases Nat.lt_trichotomy i g.length with hi | hi | hi
    · rw [dfaGet_append_lt g _ i hi]; exact hdet i
    · subst hi; rw [dfaGet_append_len]; simp [dfaNew]
    · rw [dfaGet_out _ i (by simp; omega)]; simp
  · intro i kk v h
    by_cases hi : i < g.length
    · rw [dfaGet_append_lt g _ i hi]; exact h
    · rw [dfaGet_out g i (by omega)] at h; simp [dlookup] at h
  · intro i hi
    rw [dfaGet_append_lt g _ i hi]
    exact ⟨rfl, rfl⟩
  · intro i hi hi'
    have : i = g.length := by simp at hi'; omega
    subst this
    rw [dfaGet_append_len]
    rfl

theorem dfaGet_setTrans_eq (g : DfaGraph) (src : ℕ) (k : Int) (tgt : ℕ)
    (h : src < g.length) :
    dfaGet (dfaSetTrans g src k tgt) src =
      { dfaGet g src with
        next_states := dinsert (dfaGet g src).next_states (DKey.intK k) tgt } := by
  have := getD_updAt_eq g src
    (fun st => { st with next_states := dinsert st.next_states (DKey.intK k) tgt })
    ⟨none, 0, []⟩ h
  simpa [dfaGet, dfaSetTrans] using this

theorem dfaGet_setTrans_ne (g : DfaGraph) (src i : ℕ) (k : Int) (tgt : ℕ)
    (h : i ≠ src) : dfaGet (dfaSetTrans g src k tgt) i = dfaGet g i := by
  have := getD_updAt_ne g src i
    (fun st => { st with next_states := dinsert st.next_states (DKey.intK k) tgt })
    ⟨none, 0, []⟩ (Ne.symm h)
  simpa [dfaGet, dfaSetTrans] using this

theorem extC_setTrans (g : DfaGraph) (src : ℕ) (k : Int) (tgt : ℕ)
    (h : lookout_exists (dfaGet g src) k = false) :
    DfaExtC g (dfaSetTrans g src k tgt) := by
  have hnone : dlookup (dfaGet g src).next_states (DKey.intK k) = none := by
    unfold lookout_exists at h
    exact Option.not_isSome_iff_eq_none.mp (by simp [h])
  have hnotmem : DKey.intK k ∉ (dfaGet g src).next_states.map Prod.fst :=
    (dlookup_eq_none_iff _ _).mp hnone
  by_cases hsrc : src < g.length
  · refine ⟨by rw [dfaSetTrans, updAt_length], ?_, ?_, ?_, ?_⟩
    · intro hdet i
      by_cases hi : i = src
      · subst hi
        rw [dfaGet_setTrans_eq g i k tgt hsrc]
        simp only
        rw [dinsert_absent _ _ _ hnone, List.map_append]
        simp [List.nodup_append, hdet i, hnotmem]
      · rw [dfaGet_setTrans_ne g src i k tgt hi]
        exact hdet i
    · intro i kk v hv
      by_cases hi : i = src
      · subst hi
        rw [dfaGet_setTrans_eq g i k tgt hsrc]
        simp only
        rw [dinsert_absent _ _ _ hnone]
        exact dlookup_append_left _ _ _ _ hv
      · rw [dfaGet_setTrans_ne g src i k tgt hi]
        exact hv
    · intro i hi
      by_cases hi' : i = src
      · subst hi'
        rw [dfaGet_setTrans_eq g i k tgt hsrc]
        exact ⟨rfl, rfl⟩
      · rw [dfaGet_setTrans_ne g src i k tgt hi']
        exact ⟨rfl, rfl⟩
    · intro i h1 h2
      rw [dfaSetTrans, updAt_length] at h2
      omega
  · rw [dfaSetTrans, updAt_out _ _ _ (by omega)]
    exact extC_refl g

theorem lookout_exists_append_false (g : DfaGraph) (self : ℕ) (k k' : Int)
    (hex : lookout_exists (dfaGet g self) k = false) :
    lookout_exists (dfaGet (g ++ [dfaNew k']) self) k = false := by
  rcases Nat.lt_trichotomy self g.length with hs | hs | hs
  · rw [dfaGet_append_lt g _ self hs]; exact hex
  · subst hs; rw [dfaGet_append_len]; rfl
  · rw [dfaGet_out _ self (by simp; omega)]; rfl

theorem extC_mkLookoutNodes (ks : List Int) : ∀ (g : DfaGraph) (acc : List (Int × ℕ)),
    DfaExtC g (mkLookoutNodes g ks acc).1 := by
  induction ks with
  | nil => intro g acc; exact extC_refl g
  | cons k rest ih =>
    intro g acc
    exact extC_trans (extC_append g k) (ih _ _)

theorem extC_attachOne (nodes : List (Int × ℕ)) (nid : ℕ) :
    ∀ (ks : List Int) (g : DfaGraph), DfaExtC g (attachOne nodes g nid ks) := by
  intro ks
  induction ks with
  | nil => intro g; exact extC_refl g
  | cons k rest ih =>
    intro g
    simp only [attachOne]
    refine extC_trans ?_ (ih _)
    by_cases hex : lookout_exists (dfaGet g nid) k = true
    · rw [if_pos hex]; exact extC_refl g
    · rw [if_neg hex]
      rcases hl : dlookupI nodes k with _ | tgt
      · simp only [hl]; exact extC_refl g
      · simp only [hl]; exact extC_setTrans g nid k tgt (by simpa using hex)

theorem extC_attachLayer (nodes : List (Int × ℕ)) (ks : List Int) :
    ∀ (layer : List ℕ) (g : DfaGraph), DfaExtC g (attachLayer nodes ks g layer) := by
  intro layer
  induction layer with
  | nil => intro g; exact extC_refl g
  | cons nid rest ih =>
    intro g
    exact extC_trans (extC_attachOne nodes nid ks g) (ih _)

theorem extC_layerStep (g : DfaGraph) (layer : List ℕ) (ks : List Int) :
    DfaExtC g (layerStep g layer ks).1 := by
  simp only [layerStep]
  exact extC_trans (extC_mkLookoutNodes ks g []) (extC_attachLayer _ ks layer _)

theorem extC_layerChain (n : ℕ) : ∀ (g : DfaGraph) (layer : List ℕ) (ks : List Int),
    DfaExtC g (layerChain n g layer ks).1 := by
  induction n with
  | zero => intro g layer ks; exact extC_refl g
  | succ m ih =>
    intro g layer ks
    exact extC_trans (extC_layerStep g layer ks) (ih _ _ _)

theorem extC_layerChainCollect (n : ℕ) : ∀ (g : DfaGraph) (layer : List ℕ) (ks : List Int),
    DfaExtC g (layerChainCollect n g layer ks).1 := by
  induction n with
  | zero => intro g layer ks; exact extC_refl g
  | succ m ih =>
    intro g layer ks
    exact extC_trans (extC_layerStep g layer ks) (ih _ _ _)

theorem extC_cliqueLinkOne (nid : ℕ) : ∀ (targets : List ℕ) (g : DfaGraph),
    DfaExtC g (cliqueLinkOne g nid targets) := by
  intro targets
  induction targets with
  | nil => intro g; exact extC_refl g
  | cons t rest ih =>
    intro g
    simp only [cliqueLinkOne]
    refine extC_trans ?_ (ih _)
    by_cases hex : lookout_exists (dfaGet g nid) ((dfaGet g t).current_state) = true
    · rw [if_pos hex]; exact extC_refl g
    · rw [if_neg hex]
      exact extC_setTrans g nid _ t (by simpa using hex)

theorem extC_cliqueLink (targets : List ℕ) : ∀ (nodes : List ℕ) (g : DfaGraph),
    DfaExtC g (cliqueLink g nodes targets) := by
  intro nodes
  induction nodes with
  | nil => intro g; exact extC_refl g
  | cons n rest ih =>
    intro g
    exact extC_trans (extC_cliqueLinkOne n targets g) (ih _)

theorem extC_ensureEmptyState (g : DfaGraph) (self : ℕ) :
    DfaExtC g (ensureEmptyState g self).1 := by
  simp only [ensureEmptyState]
  by_cases hex : lookout_exists (dfaGet g self) (-1) = true
  · rw [if_pos hex]; exact extC_refl g
  · rw [if_neg hex]
    refine extC_trans (extC_append g (-1)) (extC_setTrans _ self (-1) g.length ?_)
    exact lookout_exists_append_false g self (-1) (-1) (by simpa using hex)

theorem extC_case2Loop (ks : List Int) (self : ℕ) : ∀ (fls : List Int) (g : DfaGraph),
    DfaExtC g (case2Loop ks g self fls).1 := by
  intro fls
  induction fls with
  | nil => intro g; exact extC_refl g
  | cons fl rest ih =>
    intro g
    simp only [case2Loop]
    refine extC_trans ?_ (ih _)
    refine extC_trans (extC_mkLookoutNodes ks g []) ?_
    by_cases hex : lookout_exists (dfaGet (mkLookoutNodes g ks []).1 self) fl = true
    · rw [if_pos hex]; exact extC_refl _
    · rw [if_neg hex]
      exact extC_setTrans _ self fl _ (by simpa using hex)

theorem extC_addSingleLayer (self : ℕ) : ∀ (fls : List Int) (g : DfaGraph),
    DfaExtC g (addSingleLayer g self fls).1 := by
  intro fls
  induction fls with
  | nil => intro g; exact extC_refl g
  | cons fl rest ih =>
    intro g
    simp only [addSingleLayer]
    refine extC_trans ?_ (ih _)
    by_cases hex : lookout_exists (dfaGet g self) fl = true
    · rw [if_pos hex]; exact extC_refl g
    · rw [if_neg hex]
      refine extC_trans (extC_append g fl) (extC_setTrans _ self fl g.length ?_)
      exact lookout_exists_append_false g self fl fl (by simpa using hex)

theorem extC_add_or_recover (g : DfaGraph) (self : ℕ) (lk : SreTok) (mh : ℕ) :
    DfaExtC g (add_or_recover_lookout g self lk mh).1 := by
  cases lk
  case maxRepeat mn mx sub =>
    simp only [add_or_recover_lookout]
    split_ifs with h1 h2 h3
    · exact extC_trans (extC_layerChain mn g [self] _) (extC_cliqueLink _ _ _)
    · exact extC_trans (extC_ensureEmptyState g self)
        (extC_trans (extC_case2Loop _ self _ _) (extC_cliqueLink _ _ _))
    · exact extC_trans (extC_layerChain mn g [self] _) (extC_layerChainCollect _ _ _ _)
    · exact extC_trans (extC_ensureEmptyState g self) (extC_layerChainCollect _ _ _ _)
  all_goals exact extC_addSingleLayer self _ g

theorem extC_stepStates (mh : ℕ) (tok : SreTok) : ∀ (frontier : List ℕ) (g : DfaGraph),
    DfaExtC g (stepStates mh tok g frontier).1 := by
  intro frontier
  induction frontier with
  | nil => intro g; exact extC_refl g
  | cons s rest ih =>
    intro g
    exact extC_trans (extC_add_or_recover g s tok mh) (ih _)

theorem extC_dfaFrontier (mh : ℕ) : ∀ (toks : List SreTok) (g : DfaGraph)
    (frontier : List ℕ), DfaExtC g (dfaFrontier mh g frontier toks).1 := by
  intro toks
  induction toks with
  | nil => intro g frontier; exact extC_refl g
  | cons t rest ih =>
    intro g frontier
    exact extC_trans (extC_stepStates mh t frontier g) (ih _ _)

/-- The weaker extension relation that also survives terminal tagging:
growth, determinism preservation and binding preservation. -/
def DfaExt (g g' : DfaGraph) : Prop :=
  g.length ≤ g'.length ∧
  (dfaDet g → dfaDet g') ∧
  (∀ i k v, dlookup (dfaGet g i).next_states k = some v →
    dlookup (dfaGet g' i).next_states k = some v)

theorem extC_weaken {g g' : DfaGraph} (h : DfaExtC g g') : DfaExt g g' :=
  ⟨h.1, h.2.1, h.2.2.1⟩

theorem ext_refl (g : DfaGraph) : DfaExt g g :=
  ⟨le_rfl, fun h => h, fun _ _ _ h => h⟩

theorem ext_trans {g g' g'' : DfaGraph} (h1 : DfaExt g g') (h2 : DfaExt g' g'') :
    DfaExt g g'' :=
  ⟨le_trans h1.1 h2.1, fun h => h2.2.1 (h1.2.1 h), fun i k v h => h2.2.2 i k v (h1.2.2 i k v h)⟩

theorem ext_setTerminal (g : DfaGraph) (i : ℕ) (tok : Option Tok) :
    DfaExt g (updAt g i (fun st =>
      { st with terminal_token := set_terminal_token st.terminal_token tok })) := by
  by_cases hi : i < g.length
  · refine ⟨by rw [updAt_length], ?_, ?_⟩
    · intro hdet j
      by_cases hj : j = i
      · subst hj
        have := getD_updAt_eq g j
          (fun st => { st with terminal_token := set_terminal_token st.terminal_token tok })
          ⟨none, 0, []⟩ hi
        simp only [dfaGet]
        rw [this]
        exact hdet j
      · have := getD_updAt_ne g i j
          (fun st => { st with terminal_token := set_terminal_token st.terminal_token tok })
          ⟨none, 0, []⟩ (fun hh => hj hh.symm)
        simp only [dfaGet]
        rw [this]
        exact hdet j
    · intro j k v h
      by_cases hj : j = i
      · subst hj
        have := getD_updAt_eq g j
          (fun st => { st with terminal_token := set_terminal_token st.terminal_token tok })
          ⟨none, 0, []⟩ hi
        simp only [dfaGet] at h ⊢
        rw [this]
        exact h
      · have := getD_updAt_ne g i j
          (fun st => { st with terminal_token := set_terminal_token st.terminal_token tok })
          ⟨none, 0, []⟩ (fun hh => hj hh.symm)
        simp only [dfaGet] at h ⊢
        rw [this]
        exact h
  · rw [updAt_out _ _ _ (by omega)]
    exact ext_refl g

theorem ext_setTerminalAll (tok : Option Tok) : ∀ (ids : List ℕ) (g : DfaGraph),
    DfaExt g (setTerminalAll tok g ids) := by
  intro ids
  induction ids with
  | nil => intro g; exact ext_refl g
  | cons i rest ih =>
    intro g
    exact ext_trans (ext_setTerminal g i tok) (ih _)

theorem ext_add_rule_tokens (g : DfaGraph) (start : ℕ) (toks : List SreTok)
    (tok : Option Tok) (mh : ℕ) : DfaExt g (dfa_add_rule_tokens g start toks tok mh) := by
  simp only [dfa_add_rule_tokens]
  exact ext_trans (extC_weaken (extC_dfaFrontier mh toks g [start])) (ext_setTerminalAll _ _ _)

theorem ext_dfa_build (start : ℕ) : ∀ (rules : List (List SreTok × Option Tok)) (g : DfaGraph),
    DfaExt g (dfa_build g start rules) := by
  intro rules
  induction rules with
  | nil => intro g; exact ext_refl g
  | cons r rest ih =>
    intro g
    exact ext_trans (ext_add_rule_tokens g start r.1 r.2 100) (ih _)

theorem dfaStart_det : dfaDet dfaStart := by
  intro i
  cases i with
  | zero => simp [dfaStart, dfaGet]
  | succ n =>
    rw [dfaGet_out _ _ (by simp [dfaStart])]
    simp

/-- Claim C1: after any sequence of add_rule calls (arbitrary token
streams) on a deterministic LexerDFA graph, every state still has at most
one outgoing transition per distinct lookout key — at most one target per
concrete code point and at most one default-sentinel (-1) transition (the
keys of each state's transition dict stay pairwise distinct) — and
add_or_recover_lookout reuses existing transitions: any binding present
before a call is still present, with the same target, after it. -/
theorem dfa_determinism (g : DfaGraph) (start : ℕ)
    (rules : List (List SreTok × Option Tok)) (hdet : dfaDet g) :
    dfaDet (dfa_build g start rules) ∧
    (∀ self lk mh i k v,
      dlookup (dfaGet g i).next_states k = some v →
      dlookup (dfaGet (add_or_recover_lookout g self lk mh).1 i).next_states k = some v) :=
  ⟨(ext_dfa_build start rules g).2.1 hdet,
   fun self lk mh i k v h => (extC_add_or_recover g self lk mh).2.2.1 i k v h⟩

/-- Witness for claim C1 on the freshly constructed start graph and one
literal rule. -/
theorem dfa_determinism_witness :
    dfaDet (dfa_build dfaStart 0 [([SreTok.literal 97], some (Tok.strT "A"))]) ∧
    (∀ self lk mh i k v,
      dlookup (dfaGet dfaStart i).next_states k = some v →
      dlookup (dfaGet (add_or_recover_lookout dfaStart self lk mh).1 i).next_states k
        = some v) :=
  dfa_determinism dfaStart 0 [([SreTok.literal 97], some (Tok.strT "A"))] dfaStart_det

/-- Claim C9: every state allocated by add_or_recover_lookout is
constructed with its incoming lookout passed as the constructor's
terminal_token argument, so every new state's terminal slot holds exactly
its code point; concretely, the state freshly created for the non-zero
code point 97 reports terminal_exists before any rule has tagged it, and
any later set_terminal_token leaves the lookout value 97 in the slot. -/
theorem new_states_carry_lookout (g : DfaGraph) (self : ℕ) (lk : SreTok) (mh : ℕ) :
    (∀ i, g.length ≤ i → i < (add_or_recover_lookout g self lk mh).1.length →
      (dfaGet (add_or_recover_lookout g self lk mh).1 i).terminal_token =
        some (Tok.intT ((dfaGet (add_or_recover_lookout g self lk mh).1 i).current_state))) ∧
    (add_or_recover_lookout dfaStart 0 (SreTok.literal 97) 100).1 =
      [⟨none, 0, [(DKey.intK 97, 1)]⟩, ⟨some (Tok.intT 97), 97, []⟩] ∧
    terminal_exists (some (Tok.intT 97)) = true ∧
    (∀ arg : Option Tok, set_terminal_token (some (Tok.intT 97)) arg = some (Tok.intT 97)) := by
  refine ⟨(extC_add_or_recover g self lk mh).2.2.2.2, rfl, rfl, ?_⟩
  intro arg
  rfl

/-- Counterexample to claim C4 as stated: first, the shared DFA terminal
state after compiling [("a","FIRST"), ("a","SECOND")] holds the int 97
(the lookout stored at state creation), not "FIRST" — both rule tags were
no-ops against the already-truthy slot; second, a slot set to the token ""
by set_terminal_token is overwritten by a later set_terminal_token rather
than being immutable. -/
theorem earliest_rule_tag_cex :
    dfa_build_str dfaStart 0
      [("a", some (Tok.strT "FIRST")), ("a", some (Tok.strT "SECOND"))] =
      [⟨none, 0, [(DKey.intK 97, 1)]⟩, ⟨some (Tok.intT 97), 97, []⟩] ∧
    (some (Tok.intT 97) ≠ some (Tok.strT "FIRST")) ∧
    set_terminal_token none (some (Tok.strT "")) = some (Tok.strT "") ∧
    set_terminal_token (set_terminal_token none (some (Tok.strT "")))
      (some (Tok.strT "SECOND")) = some (Tok.strT "SECOND") := by
  refine ⟨rfl, by simp, by decide, by decide⟩

/-- Claim C4 (amended): once a state's terminal slot holds a truthy value —
Ignored or a token that is neither "" nor 0 — every later
set_terminal_token call is a no-op, so among effective writes the earliest
wins; but DFA states created by add_or_recover_lookout are already born
with their (truthy, for non-zero code points) lookout int in the slot, so
compiling [("a","FIRST"), ("a","SECOND")] leaves the shared terminal state
tagged with the int 97, both rule tags being silently ignored. -/
theorem terminal_once_truthy_immutable (cur arg : Option Tok) (h : truthy cur = true) :
    set_terminal_token cur arg = cur ∧
    (dfaGet (dfa_build_str dfaStart 0
      [("a", some (Tok.strT "FIRST")), ("a", some (Tok.strT "SECOND"))]) 1).terminal_token =
      some (Tok.intT 97) := by
  constructor
  · simp [set_terminal_token, terminal_exists, h]
  · rfl

/-- Witness for claim C4's amended theorem: the Ignored slot is immutable. -/
theorem terminal_once_truthy_immutable_witness :
    set_terminal_token (some Tok.ignored) (some (Tok.strT "X")) = some Tok.ignored ∧
    (dfaGet (dfa_build_str dfaStart 0
      [("a", some (Tok.strT "FIRST")), ("a", some (Tok.strT "SECOND"))]) 1).terminal_token =
      some (Tok.intT 97) :=
  terminal_once_truthy_immutable (some Tok.ignored) (some (Tok.strT "X")) (by decide)

/-- Claim C6: recover_lookout returns the target recorded for exactly the
given key when one exists (a one-character string being converted to its
code point first, a well-shaped ('literal', n) tuple being used as the
tuple key itself), otherwise the target of the -1 default transition when
that exists, otherwise None; it raises LookoutTupleMissFormated on a tuple
whose shape is not ('literal', int) and LookoutMustBeSingleCharacter on a
string whose length is not 1. -/
theorem recover_lookout_contract (st : DfaState) :
    (∀ n v, dlookup st.next_states (DKey.intK n) = some v →
      recover_lookout st (LookoutArg.intA n) = Except.ok (some v)) ∧
    (∀ n, dlookup st.next_states (DKey.intK n) = none →
      recover_lookout st (LookoutArg.intA n) =
        Except.ok (dlookup st.next_states (DKey.intK (-1)))) ∧
    (∀ c : Char, recover_lookout st (LookoutArg.strA (String.mk [c])) =
      recover_lookout st (LookoutArg.intA (Int.ofNat c.toNat))) ∧
    (∀ n v, dlookup st.next_states (DKey.litK n) = some v →
      recover_lookout st (LookoutArg.tupA (PyVal.pyStr "literal") (PyVal.pyInt n)) =
        Except.ok (some v)) ∧
    (∀ n, dlookup st.next_states (DKey.litK n) = none →
      recover_lookout st (LookoutArg.tupA (PyVal.pyStr "literal") (PyVal.pyInt n)) =
        Except.ok (dlookup st.next_states (DKey.intK (-1)))) ∧
    (∀ s : String, s.length ≠ 1 →
      recover_lookout st (LookoutArg.strA s) =
        Except.error LexErr.lookoutMustBeSingleCharacter) ∧
    (∀ f sd, (∀ n : Int, ¬(f = PyVal.pyStr "literal" ∧ sd = PyVal.pyInt n)) →
      recover_lookout st (LookoutArg.tupA f sd) =
        Except.error LexErr.lookoutTupleMissFormated) := by
  refine ⟨?_, ?_, ?_, ?_, ?_, ?_, ?_⟩
  · intro n v hv; simp [recover_lookout, hv]
  · intro n hv; simp [recover_lookout, hv]
  · intro c; rfl
  · intro n v hv; simp [recover_lookout, hv]
  · intro n hv; simp [recover_lookout, hv]
  · intro s hs
    obtain ⟨l⟩ := s
    rcases l with _ | ⟨c, _ | ⟨d, rest⟩⟩
    · rfl
    · exact absurd rfl hs
    · rfl
  · intro f sd hno
    rcases f with fs | fn <;> rcases sd with ss | sn
    · rfl
    · simp only [recover_lookout]
      by_cases hfs : fs = "literal"
      · subst hfs
        exact absurd ⟨rfl, rfl⟩ (hno sn)
      · rw [if_neg hfs]
    · rfl
    · rfl

/-- Tag of a RegexpTree node; singles keep their range so the sequence
comparison is strict. -/
inductive RTag where
  | sT (mn mx : ℕ)
  | uT
  | kT
deriving DecidableEq, Repr

/-- Preorder tag sequence of an optional RegexpTree: the node's tag
followed by the sequences of its child positions in source order
(fst, snd, next for unions; pattern, next for kleenes). -/
def tagSeq : Option RegexpTree → List RTag
  | none => []
  | some (RegexpTree.single mn mx next) => RTag.sT mn mx :: tagSeq next
  | some (RegexpTree.union fst snd next) =>
    RTag.uT :: (tagSeq fst ++ tagSeq snd ++ tagSeq next)
  | some (RegexpTree.kleene pattern next) => RTag.kT :: (tagSeq pattern ++ tagSeq next)

/-- RegexpTree.print_regexp at character-list level. A none result models
the AttributeError the source raises when a union has both branches absent
or a kleene has an absent pattern (it calls .print_regexp() on None); in
every other case the source appends the continuation's text. -/
def printL : Option RegexpTree → Option (List Char)
  | none => some []
  | some (RegexpTree.single mn mx next) =>
    (printL next).map
      (fun s' =>
        (if mn = mx then [Char.ofNat mn] else ['[', Char.ofNat mn, '-', Char.ofNat mx, ']']) ++ s')
  | some (RegexpTree.union none none _) => none
  | some (RegexpTree.union none (some x) next) =>
    (printL (some x)).bind (fun s =>
      (printL next).map (fun s' => ('(' :: s ++ [')', '?']) ++ s'))
  | some (RegexpTree.union (some x) none next) =>
    (printL (some x)).bind (fun s =>
      (printL next).map (fun s' => ('(' :: s ++ [')', '?']) ++ s'))
  | some (RegexpTree.union (some x) (some y) next) =>
    (printL (some x)).bind (fun sx => (printL (some y)).bind (fun sy =>
      (printL next).map (fun s' => ('(' :: sx ++ [')', '|', '('] ++ sy ++ [')']) ++ s')))
  | some (RegexpTree.kleene none _) => none
  | some (RegexpTree.kleene (some p) next) =>
    (printL (some p)).bind (fun s =>
      (printL next).map (fun s' => ('(' :: s ++ [')', '*']) ++ s'))

/-- RegexpTree.print_regexp: render the tree, or fail where the source
raises. -/
def print_regexp (t : RegexpTree) : Option String :=
  (printL (some t)).map String.mk

/-- Characters a generic regex tokenizer treats specially. -/
def metaChar (c : Char) : Bool :=
  ['(', ')', '|', '?', '*', '+', '[', ']', '-', '{', '}', '^', '$', '.', '\\'].contains c

/-- Postfix handling after a balanced group: a following ? or * wraps the
group tokens in the corresponding repetition token (as sre_parse does),
any other continuation keeps the bare subpattern token. recur is the
parser continuation at the current fuel. -/
def parsePostfix (recur : List SreTok → List Char → Option (List SreTok × List Char))
    (acc inner : List SreTok) : List Char → Option (List SreTok × List Char)
  | [] => recur (SreTok.subpattern inner :: acc) []
  | cpost :: rem4 =>
    if cpost = '?' then
      recur (SreTok.maxRepeat 0 1 [SreTok.subpattern inner] :: acc) rem4
    else if cpost = '*' then
      recur (SreTok.maxRepeat 0 MAXREPEAT [SreTok.subpattern inner] :: acc) rem4
    else recur (SreTok.subpattern inner :: acc) (cpost :: rem4)

/-- After a group's body, the close paren must follow; anything else is a
tokenization error (unbalanced parenthesis). -/
def parseAfterGroup (recur : List SreTok → List Char → Option (List SreTok × List Char))
    (acc inner : List SreTok) : List Char → Option (List SreTok × List Char)
  | [] => none
  | cpar :: rem3 =>
    if cpar = ')' then parsePostfix recur acc inner rem3 else none

/-- A [a-b] character class: exactly the five-character form the printer
emits; anything else is a tokenization error. -/
def parseBracket (recur : List SreTok → List Char → Option (List SreTok × List Char))
    (acc : List SreTok) : List Char → Option (List SreTok × List Char)
  | c1 :: cd :: c2 :: cb :: rest2 =>
    if cd = '-' ∧ cb = ']' ∧ metaChar c1 = false ∧ metaChar c2 = false then
      recur (SreTok.inTok [SreTok.range c1.toNat c2.toNat] :: acc) rest2
    else none
  | [_, _, _] => none
  | [_, _] => none
  | [_] => none
  | [] => none

/-- Modelled from the spec: the external tokenizer (sre_parse) that
format_regexp runs is out of scope of src/; per the spec it is a generic
regex tokenizer producing the structural token stream. This models its
recursive descent on the fragment print_regexp emits: literal characters,
[a-b] classes, parenthesized groups with ? and * postfixes, and |
alternation spanning the whole enclosing scope (lowest precedence). acc
holds the tokens of the current scope in reverse; the fuel only makes the
recursion structural. -/
def parseAtoms : ℕ → List SreTok → List Char → Option (List SreTok × List Char)
  | 0, _, _ => none
  | _ + 1, acc, [] => some (acc.reverse, [])
  | fuel + 1, acc, c :: rest =>
    if c = ')' then some (acc.reverse, c :: rest)
    else if c = '|' then
      match parseAtoms fuel [] rest with
      | some (alt2, rem2) => some ([SreTok.branch [acc.reverse, alt2]], rem2)
      | none => none
    else if c = '(' then
      match parseAtoms fuel [] rest with
      | some (inner, rem2) => parseAfterGroup (parseAtoms fuel) acc inner rem2
      | none => none
    else if c = '[' then parseBracket (parseAtoms fuel) acc rest
    else if metaChar c then none
    else parseAtoms fuel (SreTok.literal c.toNat :: acc) rest

/-- Modelled from the spec: the tokenizer applied to a whole pattern; a
leftover remainder (an unbalanced close paren) is a tokenization error. -/
def sreParse (fuel : ℕ) (s : String) : Option (List SreTok) :=
  match parseAtoms fuel [] s.data with
  | some (toks, []) => some toks
  | _ => none

/-- format_regexp on a printed tree: tokenize then translate. -/
def retranslate (fuel : ℕ) (s : String) : Option (Option RegexpTree) :=
  match sreParse fuel s with
  | some toks => sre_to_regexp_tree fuel toks 100
  | none => none

/-- Counterexample to claim C8 as stated: first, printing crashes on a
union with both branches absent (the source calls .print_regexp() on
None), so no retranslation is possible for that tree at all; second, for
Single c followed by Union(Single a, Single b) the printed text is
"c(a)|(b)", and retranslating it (alternation having lowest precedence in
a generic regex tokenizer, as in sre_parse) yields a union whose first
branch absorbed the preceding 'c', so the retranslated tag sequence
[union, single, single, single] differs from the original
[single, union, single, single]. -/
theorem print_retranslate_cex :
    print_regexp (RegexpTree.union none none none) = none ∧
    print_regexp (RegexpTree.single 99 99 (some (RegexpTree.union
      (some (RegexpTree.single 97 97 none)) (some (RegexpTree.single 98 98 none)) none))) =
      some "c(a)|(b)" ∧
    retranslate 100 "c(a)|(b)" =
      some (some (RegexpTree.union
        (some (RegexpTree.single 99 99 (some (RegexpTree.single 97 97 none))))
        (some (RegexpTree.single 98 98 none)) none)) ∧
    tagSeq (some (RegexpTree.union
        (some (RegexpTree.single 99 99 (some (RegexpTree.single 97 97 none))))
        (some (RegexpTree.single 98 98 none)) none)) =
      [RTag.uT, RTag.sT 99 99, RTag.sT 97 97, RTag.sT 98 98] ∧
    tagSeq (some (RegexpTree.single 99 99 (some (RegexpTree.union
      (some (RegexpTree.single 97 97 none)) (some (RegexpTree.single 98 98 none)) none)))) =
      [RTag.sT 99 99, RTag.uT, RTag.sT 97 97, RTag.sT 98 98] ∧
    ([RTag.uT, RTag.sT 99 99, RTag.sT 97 97, RTag.sT 98 98] ≠
      [RTag.sT 99 99, RTag.uT, RTag.sT 97 97, RTag.sT 98 98]) := by
  refine ⟨?_, ?_, rfl, ?_, ?_, by decide⟩
  · simp [print_regexp, printL]
  · have hp : printL (some (RegexpTree.single 99 99 (some (RegexpTree.union
        (some (RegexpTree.single 97 97 none)) (some (RegexpTree.single 98 98 none)) none)))) =
        some ['c', '(', 'a', ')', '|', '(', 'b', ')'] := by
      simp [printL]
    rw [print_regexp, hp]
    decide
  · simp [tagSeq]
  · simp [tagSeq]

/-- The structural tokens the modelled tokenizer produces for the printed
form of a well-formed tree. The flag is true when the tree heads its
concatenation scope (there a two-branch union's bare alternation splits
the whole scope into the branch token). Trees outside the well-formed
class get an arbitrary value. -/
def toks : Bool → Option RegexpTree → List SreTok
  | _, none => []
  | _, some (RegexpTree.single mn mx next) =>
    (if mn = mx then SreTok.literal mn else SreTok.inTok [SreTok.range mn mx]) ::
      toks false next
  | _, some (RegexpTree.union none (some x) next) =>
    SreTok.maxRepeat 0 1 [SreTok.subpattern (toks true (some x))] :: toks false next
  | _, some (RegexpTree.union (some x) none next) =>
    SreTok.maxRepeat 0 1 [SreTok.subpattern (toks true (some x))] :: toks false next
  | true, some (RegexpTree.union (some x) (some y) next) =>
    [SreTok.branch [[SreTok.subpattern (toks true (some x))],
      SreTok.subpattern (toks true (some y)) :: toks false next]]
  | false, some (RegexpTree.union (some _) (some _) _) => []
  | _, some (RegexpTree.union none none _) => []
  | _, some (RegexpTree.kleene (some p) next) =>
    SreTok.maxRepeat 0 MAXREPEAT [SreTok.subpattern (toks true (some p))] :: toks false next
  | _, some (RegexpTree.kleene none _) => []

/-- A code point whose character the printer emits and the tokenizer reads
back literally: the chr/ord round-trip holds and the character is not a
metacharacter. -/
def safeCP (n : ℕ) : Prop := (Char.ofNat n).toNat = n ∧ metaChar (Char.ofNat n) = false

/-- The class of trees for which the print/retranslate round-trip is
structurally faithful. The flag is true when the tree may start with a
two-branch union, i.e. it heads its concatenation scope: printing such a
union emits a bare alternation, which the tokenizer lets span the whole
enclosing scope, so an atom preceding it would be absorbed into the first
alternative (the counterexample). Singles need safe printable code points
and ordered ranges; unions need at least one branch and kleenes a
pattern, since the printer crashes otherwise. -/
inductive Wf : Bool → Option RegexpTree → Prop where
  | wnone (b : Bool) : Wf b none
  | wchar (b : Bool) (mn : ℕ) (next : Option RegexpTree) :
      safeCP mn → Wf false next → Wf b (some (RegexpTree.single mn mn next))
  | wrange (b : Bool) (mn mx : ℕ) (next : Option RegexpTree) :
      mn < mx → safeCP mn → safeCP mx → Wf false next →
      Wf b (some (RegexpTree.single mn mx next))
  | wopt1 (b : Bool) (x : RegexpTree) (next : Option RegexpTree) :
      Wf true (some x) → Wf false next →
      Wf b (some (RegexpTree.union (some x) none next))
  | wopt2 (b : Bool) (x : RegexpTree) (next : Option RegexpTree) :
      Wf true (some x) → Wf false next →
      Wf b (some (RegexpTree.union none (some x) next))
  | wboth (x y : RegexpTree) (next : Option RegexpTree) :
      Wf true (some x) → Wf true (some y) → Wf false next →
      Wf true (some (RegexpTree.union (some x) (some y) next))
  | wkleene (b : Bool) (p : RegexpTree) (next : Option RegexpTree) :
      Wf true (some p) → Wf false next →
      Wf b (some (RegexpTree.kleene (some p) next))

/-- A scope terminator for the tokenizer: end of input or a closing
paren. -/
def scopeEnd (rem : List Char) : Prop := rem = [] ∨ ∃ r, rem = ')' :: r

theorem parseAtoms_scopeEnd (acc : List SreTok) (rem : List Char) (h : scopeEnd rem) :
    parseAtoms 1 acc rem = some (acc.reverse, rem) := by
  rcases h with rfl | ⟨r, rfl⟩
  · rfl
  · rfl

theorem parsePostfix_mono {f g : List SreTok → List Char → Option (List SreTok × List Char)}
    (hfg : ∀ a i r, f a i = some r → g a i = some r) (acc inner : List SreTok) :
    ∀ (l : List Char) r, parsePostfix f acc inner l = some r →
      parsePostfix g acc inner l = some r := by
  intro l r h
  match l with
  | [] => exact hfg _ _ _ h
  | cpost :: rem4 =>
    rw [parsePostfix] at h ⊢
    by_cases hq : cpost = '?'
    · rw [if_pos hq] at h ⊢; exact hfg _ _ _ h
    · rw [if_neg hq] at h ⊢
      by_cases hs : cpost = '*'
      · rw [if_pos hs] at h ⊢; exact hfg _ _ _ h
      · rw [if_neg hs] at h ⊢; exact hfg _ _ _ h

theorem parseAfterGroup_mono {f g : List SreTok → List Char → Option (List SreTok × List Char)}
    (hfg : ∀ a i r, f a i = some r → g a i = some r) (acc inner : List SreTok) :
    ∀ (l : List Char) r, parseAfterGroup f acc inner l = some r →
      parseAfterGroup g acc inner l = some r := by
  intro l r h
  match l with
  | [] => exact h
  | cpar :: rem3 =>
    rw [parseAfterGroup] at h ⊢
    by_cases hp : cpar = ')'
    · rw [if_pos hp] at h ⊢; exact parsePostfix_mono hfg acc inner rem3 r h
    · rw [if_neg hp] at h ⊢; exact h

theorem parseBracket_mono {f g : List SreTok → List Char → Option (List SreTok × List Char)}
    (hfg : ∀ a i r, f a i = some r → g a i = some r) (acc : List SreTok) :
    ∀ (l : List Char) r, parseBracket f acc l = some r → parseBracket g acc l = some r := by
  intro l r h
  match l with
  | [] => exact h
  | [_] => exact h
  | [_, _] => exact h
  | [_, _, _] => exact h
  | c1 :: cd :: c2 :: cb :: rest2 =>
    rw [parseBracket] at h ⊢
    by_cases h6 : cd = '-' ∧ cb = ']' ∧ metaChar c1 = false ∧ metaChar c2 = false
    · rw [if_pos h6] at h ⊢; exact hfg _ _ _ h
    · rw [if_neg h6] at h ⊢; exact h

theorem parseAtoms_mono (f : ℕ) : ∀ (acc : List SreTok) (i : List Char) r,
    parseAtoms f acc i = some r → parseAtoms (f + 1) acc i = some r := by
  induction f with
  | zero => intro acc i r h; simp [parseAtoms] at h
  | succ n ih =>
    intro acc i r h
    match i with
    | [] => simpa [parseAtoms] using h
    | c :: rest =>
      rw [parseAtoms] at h
      rw [parseAtoms]
      by_cases h1 : c = ')'
      · rw [if_pos h1] at h ⊢; exact h
      · rw [if_neg h1] at h ⊢
        by_cases h2 : c = '|'
        · rw [if_pos h2] at h ⊢
          rcases hp : parseAtoms n [] rest with _ | ⟨alt2, rem2⟩
          · rw [hp] at h; exact absurd h (by simp)
          · rw [hp] at h
            rw [ih _ _ _ hp]
            exact h
        · rw [if_neg h2] at h ⊢
          by_cases h3 : c = '('
          · rw [if_pos h3] at h ⊢
            rcases hp : parseAtoms n [] rest with _ | ⟨inner, rem2⟩
            · rw [hp] at h; exact absurd h (by simp)
            · rw [hp] at h
              rw [ih _ _ _ hp]
              exact parseAfterGroup_mono ih acc inner rem2 r h
          · rw [if_neg h3] at h ⊢
            by_cases h4 : c = '['
            · rw [if_pos h4] at h ⊢
              exact parseBracket_mono ih acc rest r h
            · rw [if_neg h4] at h ⊢
              by_cases h5 : metaChar c
              · rw [if_pos h5] at h ⊢; exact h
              · rw [if_neg h5] at h ⊢; exact ih _ _ _ h

theorem parseAtoms_mono_le (f f' : ℕ) (hle : f ≤ f') (acc : List SreTok) (i : List Char)
    (r : List SreTok × List Char) (h : parseAtoms f acc i = some r) :
    parseAtoms f' acc i = some r := by
  induction f' with
  | zero => exact (Nat.le_zero.mp hle) ▸ h
  | succ m ih =>
    rcases Nat.lt_or_ge f (m + 1) with hf | hf
    · exact parseAtoms_mono m acc i r (ih (by omega))
    · have : f = m + 1 := by omega
      exact this ▸ h

theorem transGo_mono (f : ℕ) : ∀ (c : TransCall) r,
    transGo f c = some r → transGo (f + 1) c = some r := by
  induction f with
  | zero => intro c r h; simp [transGo] at h
  | succ n ih =>
    intro c r h
    match c with
    | TransCall.main [] m => exact h
    | TransCall.main (SreTok.literal nn :: tail) m =>
      rw [transGo] at h ⊢
      rcases hp : transGo n (TransCall.main tail 100) with _ | t1
      · rw [hp] at h; exact absurd h (by simp)
      · rw [hp] at h
        rw [ih _ _ hp]
        exact h
    | TransCall.main (SreTok.range mn mx :: tail) m =>
      rw [transGo] at h ⊢
      rcases hp : transGo n (TransCall.main tail 100) with _ | t1
      · rw [hp] at h; exact absurd h (by simp)
      · rw [hp] at h
        rw [ih _ _ hp]
        exact h
    | TransCall.main (SreTok.inTok elems :: tail) m =>
      rw [transGo] at h ⊢
      exact ih _ _ h
    | TransCall.main (SreTok.maxRepeat mn mx sub :: tail) m =>
      rw [transGo] at h ⊢
      by_cases hmn : 0 < mn
      · rw [if_pos hmn] at h ⊢; exact ih _ _ h
      · rw [if_neg hmn] at h ⊢
        by_cases hmx : 1 ≤ mx ∧ mx ≤ m
        · rw [if_pos hmx] at h ⊢; exact ih _ _ h
        · rw [if_neg hmx] at h ⊢
          by_cases hz : mx = 0
          · rw [if_pos hz] at h ⊢; exact ih _ _ h
          · rw [if_neg hz] at h ⊢
            rcases hp : transGo n (TransCall.main sub m) with _ | pat
            · rw [hp] at h; exact absurd h (by simp)
            · rcases hq : transGo n (TransCall.main tail 100) with _ | nxt
              · rw [hp, hq] at h; exact absurd h (by simp)
              · rw [hp, hq] at h
                rw [ih _ _ hp, ih _ _ hq]
                exact h
    | TransCall.main (SreTok.branch alts :: tail) m =>
      rw [transGo] at h ⊢
      exact ih _ _ h
    | TransCall.main (SreTok.subpattern sub :: tail) m =>
      rw [transGo] at h ⊢
      exact ih _ _ h
    | TransCall.main (SreTok.atTok :: tail) m => exact h
    | TransCall.main (SreTok.unknown tg :: tail) m => exact h
    | TransCall.ivUnion [] next m => exact h
    | TransCall.ivUnion [(mn, mx)] next m =>
      rw [transGo] at h ⊢
      rcases hp : transGo n (TransCall.main next m) with _ | t1
      · rw [hp] at h; exact absurd h (by simp)
      · rw [hp] at h
        rw [ih _ _ hp]
        exact h
    | TransCall.ivUnion ((mn, mx) :: iv :: rest) next m =>
      rw [transGo] at h ⊢
      rcases hp : transGo n (TransCall.ivUnion (iv :: rest) [] m) with _ | tailTree
      · rw [hp] at h; exact absurd h (by simp)
      · rcases hq : transGo n (TransCall.main next m) with _ | nextTree
        · rw [hp, hq] at h; exact absurd h (by simp)
        · rw [hp, hq] at h
          rw [ih _ _ hp, ih _ _ hq]
          exact h
    | TransCall.sreUnion [] next m => exact h
    | TransCall.sreUnion [alt] next m =>
      rw [transGo] at h ⊢
      exact ih _ _ h
    | TransCall.sreUnion (alt :: alt' :: rest) next m =>
      rw [transGo] at h ⊢
      rcases hp : transGo n (TransCall.main alt m) with _ | fstB
      · rw [hp] at h; exact absurd h (by simp)
      · rcases hq : transGo n (TransCall.sreUnion (alt' :: rest) [] m) with _ | sndB
        · rw [hp, hq] at h; exact absurd h (by simp)
        · rcases hr : transGo n (TransCall.main next m) with _ | nextB
          · rw [hp, hq, hr] at h; exact absurd h (by simp)
          · rw [hp, hq, hr] at h
            rw [ih _ _ hp, ih _ _ hq, ih _ _ hr]
            exact h

theorem transGo_mono_le (f f' : ℕ) (hle : f ≤ f') (c : TransCall) (r : Option RegexpTree)
    (h : transGo f c = some r) : transGo f' c = some r := by
  induction f' with
  | zero => exact (Nat.le_zero.mp hle) ▸ h
  | succ m ih =>
    rcases Nat.lt_or_ge f (m + 1) with hf | hf
    · exact transGo_mono m c r (ih (by omega))
    · have : f = m + 1 := by omega
      exact this ▸ h

theorem tagSeq_ne_nil (t : RegexpTree) : tagSeq (some t) ≠ [] := by
  cases t <;> simp [tagSeq]

theorem range'_go (k : ℕ) : ∀ (mn a : ℕ),
    set_to_intervals_go (List.range' (a + 1) k) mn a = [(mn, a + k)] := by
  induction k with
  | zero => intro mn a; simp [set_to_intervals_go]
  | succ j ih =>
    intro mn a
    rw [List.range'_succ]
    simp only [set_to_intervals_go, if_pos rfl]
    have hj := ih mn (a + 1)
    rw [hj]
    have : a + 1 + j = a + (j + 1) := by omega
    rw [this]
    simp

theorem sort_Icc_eq_range' (mn mx : ℕ) :
    (Finset.Icc mn mx).sort (· ≤ ·) = List.range' mn (mx + 1 - mn) := by
  apply List.eq_of_perm_of_sorted (r := (· ≤ ·))
  · have h1 : ((Finset.Icc mn mx).sort (· ≤ ·) : Multiset ℕ) = (Finset.Icc mn mx).val :=
      Finset.sort_eq _ _
    have h2 : (Finset.Icc mn mx).val = (List.range' mn (mx + 1 - mn) : Multiset ℕ) := by
      rw [Nat.Icc_eq_range']
    rw [h2] at h1
    exact Multiset.coe_eq_coe.mp h1
  · exact Finset.sort_sorted _ _
  · exact List.pairwise_le_range' mn (mx + 1 - mn)

theorem set_to_intervals_Icc (mn mx : ℕ) (h : mn ≤ mx) :
    set_to_intervals (Finset.Icc mn mx) = [(mn, mx)] := by
  rw [set_to_intervals, sort_Icc_eq_range']
  have hlen : mx + 1 - mn = (mx - mn) + 1 := by omega
  rw [hlen, List.range'_succ]
  simp only [set_to_intervals_aux]
  rw [range'_go]
  have : mn + (mx - mn) = mx := by omega
  rw [this]

theorem sre_in_interval_range (mn mx : ℕ) (h : mn ≤ mx) :
    sre_list_to_interval [SreTok.range mn mx] = [(mn, mx)] := by
  rw [sre_list_to_interval]
  have : sre_list_to_set [SreTok.range mn mx] = Finset.Icc mn mx := by
    simp [sre_list_to_set]
  rw [this, set_to_intervals_Icc mn mx h]

/-- The first character of a printed well-formed tree is never a postfix
operator (it is a safe literal character, an opening bracket, or an
opening paren). -/
theorem printL_head (b : Bool) (t : RegexpTree) (cs : List Char)
    (hwf : Wf b (some t)) (hp : printL (some t) = some cs) :
    ∃ c cs', cs = c :: cs' ∧ c ≠ '?' ∧ c ≠ '*' := by
  cases hwf with
  | wchar b mn next hsafe hnext =>
    rw [printL] at hp
    rcases Option.map_eq_some'.mp hp with ⟨s', _, hcs⟩
    have hcs' : cs = Char.ofNat mn :: s' := by simpa using hcs.symm
    refine ⟨Char.ofNat mn, s', hcs', ?_, ?_⟩
    · intro hh
      have h2 := hsafe.2
      rw [hh] at h2
      exact absurd h2 (by decide)
    · intro hh
      have h2 := hsafe.2
      rw [hh] at h2
      exact absurd h2 (by decide)
  | wrange b mn mx next hlt hs1 hs2 hnext =>
    rw [printL] at hp
    rcases Option.map_eq_some'.mp hp with ⟨s', _, hcs⟩
    have hne : ¬ mn = mx := by omega
    have hcs' : cs = '[' :: (Char.ofNat mn :: '-' :: Char.ofNat mx :: ']' :: s') := by
      simpa [hne] using hcs.symm
    exact ⟨'[', _, hcs', by decide, by decide⟩
  | wopt1 b x next hx hnext =>
    rw [printL] at hp
    rcases Option.bind_eq_some.mp hp with ⟨sx, _, hcs⟩
    rcases Option.map_eq_some'.mp hcs with ⟨s', _, hcs'⟩
    exact ⟨'(', _, hcs'.symm, by decide, by decide⟩
  | wopt2 b x next hx hnext =>
    rw [printL] at hp
    rcases Option.bind_eq_some.mp hp with ⟨sx, _, hcs⟩
    rcases Option.map_eq_some'.mp hcs with ⟨s', _, hcs'⟩
    exact ⟨'(', _, hcs'.symm, by decide, by decide⟩
  | wboth x y next hx hy hnext =>
    rw [printL] at hp
    rcases Option.bind_eq_some.mp hp with ⟨sx, _, hcs⟩
    rcases Option.bind_eq_some.mp hcs with ⟨sy, _, hcs'⟩
    rcases Option.map_eq_some'.mp hcs' with ⟨s', _, hcs''⟩
    exact ⟨'(', _, hcs''.symm, by decide, by decide⟩
  | wkleene b p next hppat hnext =>
    rw [printL] at hp
    rcases Option.bind_eq_some.mp hp with ⟨sp, _, hcs⟩
    rcases Option.map_eq_some'.mp hcs with ⟨s', _, hcs'⟩
    exact ⟨'(', _, hcs'.symm, by decide, by decide⟩

theorem toks_none (b : Bool) : toks b none = [] := by cases b <;> rw [toks]

theorem toks_single (b : Bool) (mn mx : ℕ) (next : Option RegexpTree) :
    toks b (some (RegexpTree.single mn mx next)) =
      (if mn = mx then SreTok.literal mn else SreTok.inTok [SreTok.range mn mx]) ::
        toks false next := by
  cases b <;> rw [toks]

theorem toks_union1 (b : Bool) (x : RegexpTree) (next : Option RegexpTree) :
    toks b (some (RegexpTree.union (some x) none next)) =
      SreTok.maxRepeat 0 1 [SreTok.subpattern (toks true (some x))] :: toks false next := by
  cases b <;> rw [toks]

theorem toks_union2 (b : Bool) (x : RegexpTree) (next : Option RegexpTree) :
    toks b (some (RegexpTree.union none (some x) next)) =
      SreTok.maxRepeat 0 1 [SreTok.subpattern (toks true (some x))] :: toks false next := by
  cases b <;> rw [toks]

theorem toks_kleene (b : Bool) (p : RegexpTree) (next : Option RegexpTree) :
    toks b (some (RegexpTree.kleene (some p) next)) =
      SreTok.maxRepeat 0 MAXREPEAT [SreTok.subpattern (toks true (some p))] ::
        toks false next := by
  cases b <;> rw [toks]

/-- Printing never hits the crashing None calls on a well-formed tree. -/
theorem printL_some {b : Bool} {r : Option RegexpTree} (hwf : Wf b r) :
    ∃ cs, printL r = some cs := by
  induction hwf with
  | wnone b => exact ⟨[], by rw [printL]⟩
  | wchar b mn next hsafe hnext ih =>
    obtain ⟨s', hs'⟩ := ih
    exact ⟨_, by rw [printL, hs']; rfl⟩
  | wrange b mn mx next hlt hs1 hs2 hnext ih =>
    obtain ⟨s', hs'⟩ := ih
    exact ⟨_, by rw [printL, hs']; rfl⟩
  | wopt1 b x next hx hnext ihx ihn =>
    obtain ⟨sx, hsx⟩ := ihx
    obtain ⟨s', hs'⟩ := ihn
    exact ⟨_, by rw [printL, hsx, hs']; rfl⟩
  | wopt2 b x next hx hnext ihx ihn =>
    obtain ⟨sx, hsx⟩ := ihx
    obtain ⟨s', hs'⟩ := ihn
    exact ⟨_, by rw [printL, hsx, hs']; rfl⟩
  | wboth x y next hx hy hnext ihx ihy ihn =>
    obtain ⟨sx, hsx⟩ := ihx
    obtain ⟨sy, hsy⟩ := ihy
    obtain ⟨s', hs'⟩ := ihn
    exact ⟨_, by rw [printL, hsx, hsy, hs']; rfl⟩
  | wkleene b p next hppat hnext ihp ihn =>
    obtain ⟨sp, hsp⟩ := ihp
    obtain ⟨s', hs'⟩ := ihn
    exact ⟨_, by rw [printL, hsp, hs']; rfl⟩

/-- After a printed group, the continuation (a printed well-formed tree
followed by a scope end) never starts with a postfix operator, so the
tokenizer keeps the bare subpattern token. -/
theorem parsePostfix_no_op
    (recur : List SreTok → List Char → Option (List SreTok × List Char))
    (acc inner : List SreTok) (bb : Bool) (r : Option RegexpTree) (s' rem : List Char)
    (hwf : Wf bb r) (hp : printL r = some s') (hrem : scopeEnd rem) :
    parsePostfix recur acc inner (s' ++ rem) =
      recur (SreTok.subpattern inner :: acc) (s' ++ rem) := by
  cases r with
  | none =>
    rw [printL] at hp
    have hs : s' = [] := (Option.some.inj hp).symm
    subst hs
    rcases hrem with rfl | ⟨rr, rfl⟩
    · rfl
    · show parsePostfix recur acc inner (')' :: rr) = recur (SreTok.subpattern inner :: acc) (')' :: rr)
      rw [parsePostfix, if_neg (by decide), if_neg (by decide)]
  | some tt =>
    obtain ⟨c, cs', rfl, hq, hs⟩ := printL_head bb tt s' hwf hp
    rw [List.cons_append, parsePostfix, if_neg hq, if_neg hs]

theorem metaChar_neq (c : Char) (hm : metaChar c = false) :
    ¬ c = ')' ∧ ¬ c = '|' ∧ ¬ c = '(' ∧ ¬ c = '[' := by
  refine ⟨?_, ?_, ?_, ?_⟩ <;> intro hh <;> rw [hh] at hm <;> exact absurd hm (by decide)

/-- Tokenizing the printed form of a well-formed tree followed by a scope
terminator yields exactly the tree's structural tokens: appended to any
accumulated scope prefix when the tree cannot head its scope with a bare
alternation (flag false), and from an empty prefix in general. -/
theorem parse_print {b : Bool} {r : Option RegexpTree} (hwf : Wf b r) :
    ∀ cs, printL r = some cs → ∀ rem, scopeEnd rem →
      ((b = false → ∀ acc, ∃ f, parseAtoms f acc (cs ++ rem) =
          some (acc.reverse ++ toks false r, rem)) ∧
        ∃ f, parseAtoms f [] (cs ++ rem) = some (toks b r, rem)) := by
  induction hwf with
  | wnone b =>
    intro cs hp rem hrem
    rw [printL] at hp
    have hcs : cs = [] := (Option.some.inj hp).symm
    subst hcs
    have hgen : ∀ acc, ∃ f, parseAtoms f acc ([] ++ rem) =
        some (acc.reverse ++ toks false (none : Option RegexpTree), rem) := by
      intro acc
      refine ⟨1, ?_⟩
      rw [List.nil_append, parseAtoms_scopeEnd acc rem hrem, toks_none, List.append_nil]
    refine ⟨fun _ => hgen, ?_⟩
    obtain ⟨f, hf⟩ := hgen []
    exact ⟨f, by rw [hf]; simp [toks_none]⟩
  | wchar b mn next hsafe hnext ih =>
    intro cs hp rem hrem
    rw [printL] at hp
    rcases Option.map_eq_some'.mp hp with ⟨s', hs', hcs⟩
    have hcs' : cs = Char.ofNat mn :: s' := by simpa using hcs.symm
    subst hcs'
    obtain ⟨h1, h2, h3, h4⟩ := metaChar_neq _ hsafe.2
    have h5 : ¬ metaChar (Char.ofNat mn) = true := by simp [hsafe.2]
    have hgen : ∀ acc, ∃ f, parseAtoms f acc ((Char.ofNat mn :: s') ++ rem) =
        some (acc.reverse ++ toks false (some (RegexpTree.single mn mn next)), rem) := by
      intro acc
      obtain ⟨f₀, hf₀⟩ := (ih s' hs' rem hrem).1 rfl (SreTok.literal mn :: acc)
      refine ⟨f₀ + 1, ?_⟩
      rw [List.cons_append, parseAtoms, if_neg h1, if_neg h2, if_neg h3, if_neg h4,
        if_neg h5, hsafe.1, hf₀]
      simp [toks_single, List.append_assoc]
    refine ⟨fun _ => hgen, ?_⟩
    obtain ⟨f, hf⟩ := hgen []
    exact ⟨f, by rw [hf]; simp [toks_single]⟩
  | wrange b mn mx next hlt hs1 hs2 hnext ih =>
    intro cs hp rem hrem
    rw [printL] at hp
    rcases Option.map_eq_some'.mp hp with ⟨s', hs', hcs⟩
    have hne : ¬ mn = mx := by omega
    have hcs' : cs = '[' :: Char.ofNat mn :: '-' :: Char.ofNat mx :: ']' :: s' := by
      simpa [hne] using hcs.symm
    subst hcs'
    have hgen : ∀ acc, ∃ f, parseAtoms f acc
        (('[' :: Char.ofNat mn :: '-' :: Char.ofNat mx :: ']' :: s') ++ rem) =
        some (acc.reverse ++ toks false (some (RegexpTree.single mn mx next)), rem) := by
      intro acc
      obtain ⟨f₀, hf₀⟩ := (ih s' hs' rem hrem).1 rfl
        (SreTok.inTok [SreTok.range mn mx] :: acc)
      refine ⟨f₀ + 1, ?_⟩
      simp only [List.cons_append]
      rw [parseAtoms, if_neg (by decide : ¬ ('[' = ')')), if_neg (by decide : ¬ ('[' = '|')),
        if_neg (by decide : ¬ ('[' = '(')), if_pos rfl, parseBracket,
        if_pos ⟨rfl, rfl, hs1.2, hs2.2⟩, hs1.1, hs2.1, hf₀]
      simp [toks_single, hne, List.append_assoc]
    refine ⟨fun _ => hgen, ?_⟩
    obtain ⟨f, hf⟩ := hgen []
    exact ⟨f, by rw [hf]; simp [toks_single, hne]⟩
  | wopt1 b x next hx hnext ihx ihn =>
    intro cs hp rem hrem
    rw [printL] at hp
    simp only [Option.bind_eq_some, Option.map_eq_some'] at hp
    obtain ⟨sx, hsx, s', hs', hcs⟩ := hp
    subst hcs
    have hrem₁ : scopeEnd (')' :: '?' :: (s' ++ rem)) := Or.inr ⟨_, rfl⟩
    obtain ⟨f₁, hf₁⟩ := (ihx sx hsx _ hrem₁).2
    have hgen : ∀ acc, ∃ f, parseAtoms f acc ((('(' :: sx ++ [')', '?']) ++ s') ++ rem) =
        some (acc.reverse ++ toks false (some (RegexpTree.union (some x) none next)), rem) := by
      intro acc
      obtain ⟨f₂, hf₂⟩ := (ihn s' hs' rem hrem).1 rfl
        (SreTok.maxRepeat 0 1 [SreTok.subpattern (toks true (some x))] :: acc)
      refine ⟨(f₁ + f₂) + 1, ?_⟩
      have hstream : (('(' :: sx ++ [')', '?']) ++ s') ++ rem =
          '(' :: (sx ++ (')' :: '?' :: (s' ++ rem))) := by simp
      rw [hstream, parseAtoms, if_neg (by decide : ¬ ('(' = ')')),
        if_neg (by decide : ¬ ('(' = '|')), if_pos rfl]
      have hx' : parseAtoms (f₁ + f₂) [] (sx ++ (')' :: '?' :: (s' ++ rem))) =
          some (toks true (some x), ')' :: '?' :: (s' ++ rem)) :=
        parseAtoms_mono_le f₁ _ (by omega) _ _ _ hf₁
      rw [hx']
      have hAG : parseAfterGroup (parseAtoms (f₁ + f₂)) acc (toks true (some x))
          (')' :: '?' :: (s' ++ rem)) =
          some (acc.reverse ++ toks false (some (RegexpTree.union (some x) none next)), rem) := by
        rw [parseAfterGroup, if_pos rfl, parsePostfix, if_pos rfl,
          parseAtoms_mono_le f₂ (f₁ + f₂) (by omega) _ _ _ hf₂]
        simp [toks_union1, List.append_assoc]
      exact hAG
    refine ⟨fun _ => hgen, ?_⟩
    obtain ⟨f, hf⟩ := hgen []
    exact ⟨f, by rw [hf]; simp [toks_union1]⟩
  | wopt2 b x next hx hnext ihx ihn =>
    intro cs hp rem hrem
    rw [printL] at hp
    simp only [Option.bind_eq_some, Option.map_eq_some'] at hp
    obtain ⟨sx, hsx, s', hs', hcs⟩ := hp
    subst hcs
    have hrem₁ : scopeEnd (')' :: '?' :: (s' ++ rem)) := Or.inr ⟨_, rfl⟩
    obtain ⟨f₁, hf₁⟩ := (ihx sx hsx _ hrem₁).2
    have hgen : ∀ acc, ∃ f, parseAtoms f acc ((('(' :: sx ++ [')', '?']) ++ s') ++ rem) =
        some (acc.reverse ++ toks false (some (RegexpTree.union none (some x) next)), rem) := by
      intro acc
      obtain ⟨f₂, hf₂⟩ := (ihn s' hs' rem hrem).1 rfl
        (SreTok.maxRepeat 0 1 [SreTok.subpattern (toks true (some x))] :: acc)
      refine ⟨(f₁ + f₂) + 1, ?_⟩
      have hstream : (('(' :: sx ++ [')', '?']) ++ s') ++ rem =
          '(' :: (sx ++ (')' :: '?' :: (s' ++ rem))) := by simp
      rw [hstream, parseAtoms, if_neg (by decide : ¬ ('(' = ')')),
        if_neg (by decide : ¬ ('(' = '|')), if_pos rfl]
      have hx' : parseAtoms (f₁ + f₂) [] (sx ++ (')' :: '?' :: (s' ++ rem))) =
          some (toks true (some x), ')' :: '?' :: (s' ++ rem)) :=
        parseAtoms_mono_le f₁ _ (by omega) _ _ _ hf₁
      rw [hx']
      have hAG : parseAfterGroup (parseAtoms (f₁ + f₂)) acc (toks true (some x))
          (')' :: '?' :: (s' ++ rem)) =
          some (acc.reverse ++ toks false (some (RegexpTree.union none (some x) next)), rem) := by
        rw [parseAfterGroup, if_pos rfl, parsePostfix, if_pos rfl,
          parseAtoms_mono_le f₂ (f₁ + f₂) (by omega) _ _ _ hf₂]
        simp [toks_union2, List.append_assoc]
      exact hAG
    refine ⟨fun _ => hgen, ?_⟩
    obtain ⟨f, hf⟩ := hgen []
    exact ⟨f, by rw [hf]; simp [toks_union2]⟩
  | wboth x y next hx hy hnext ihx ihy ihn =>
    intro cs hp rem hrem
    rw [printL] at hp
    simp only [Option.bind_eq_some, Option.map_eq_some'] at hp
    obtain ⟨sx, hsx, sy, hsy, s', hs', hcs⟩ := hp
    subst hcs
    refine ⟨fun hcon => absurd hcon (by decide), ?_⟩
    have hrem₂ : scopeEnd (')' :: (s' ++ rem)) := Or.inr ⟨_, rfl⟩
    obtain ⟨f₂, hf₂⟩ := (ihy sy hsy _ hrem₂).2
    obtain ⟨f₃, hf₃⟩ := (ihn s' hs' rem hrem).1 rfl [SreTok.subpattern (toks true (some y))]
    have hrem₁ : scopeEnd (')' :: '|' :: '(' :: (sy ++ (')' :: (s' ++ rem)))) :=
      Or.inr ⟨_, rfl⟩
    obtain ⟨f₁, hf₁⟩ := (ihx sx hsx _ hrem₁).2
    refine ⟨f₁ + (f₂ + f₃) + 2 + 1, ?_⟩
    have hstream : ((('(' :: sx ++ [')', '|', '('] ++ sy ++ [')']) ++ s') ++ rem) =
        '(' :: (sx ++ (')' :: '|' :: '(' :: (sy ++ (')' :: (s' ++ rem))))) := by simp
    rw [hstream, parseAtoms, if_neg (by decide : ¬ ('(' = ')')),
      if_neg (by decide : ¬ ('(' = '|')), if_pos rfl]
    have hx' : parseAtoms (f₁ + (f₂ + f₃) + 2) []
        (sx ++ (')' :: '|' :: '(' :: (sy ++ (')' :: (s' ++ rem))))) =
        some (toks true (some x), ')' :: '|' :: '(' :: (sy ++ (')' :: (s' ++ rem)))) :=
      parseAtoms_mono_le f₁ _ (by omega) _ _ _ hf₁
    rw [hx']
    have hAG : parseAfterGroup (parseAtoms (f₁ + (f₂ + f₃) + 2)) [] (toks true (some x))
        (')' :: '|' :: '(' :: (sy ++ (')' :: (s' ++ rem)))) =
        some (toks true (some (RegexpTree.union (some x) (some y) next)), rem) := by
      rw [parseAfterGroup, if_pos rfl, parsePostfix,
        if_neg (by decide : ¬ ('|' = '?')), if_neg (by decide : ¬ ('|' = '*'))]
      rw [show f₁ + (f₂ + f₃) + 2 = (f₁ + (f₂ + f₃) + 1) + 1 from rfl]
      rw [parseAtoms, if_neg (by decide : ¬ ('|' = ')')), if_pos rfl]
      have hy0 : parseAtoms (f₁ + (f₂ + f₃) + 1) [] ('(' :: (sy ++ (')' :: (s' ++ rem)))) =
          some (SreTok.subpattern (toks true (some y)) :: toks false next, rem) := by
        rw [parseAtoms, if_neg (by decide : ¬ ('(' = ')')),
          if_neg (by decide : ¬ ('(' = '|')), if_pos rfl]
        have hy' : parseAtoms (f₁ + (f₂ + f₃)) [] (sy ++ (')' :: (s' ++ rem))) =
            some (toks true (some y), ')' :: (s' ++ rem)) :=
          parseAtoms_mono_le f₂ _ (by omega) _ _ _ hf₂
        rw [hy']
        have hAG2 : parseAfterGroup (parseAtoms (f₁ + (f₂ + f₃))) [] (toks true (some y))
            (')' :: (s' ++ rem)) =
            some (SreTok.subpattern (toks true (some y)) :: toks false next, rem) := by
          rw [parseAfterGroup, if_pos rfl]
          rw [parsePostfix_no_op (parseAtoms (f₁ + (f₂ + f₃))) []
            (toks true (some y)) false next s' rem hnext hs' hrem]
          rw [parseAtoms_mono_le f₃ (f₁ + (f₂ + f₃)) (by omega) _ _ _ hf₃]
          simp
        exact hAG2
      rw [hy0]
      simp [toks]
    exact hAG
  | wkleene b p next hpp hnext ihp ihn =>
    intro cs hp rem hrem
    rw [printL] at hp
    simp only [Option.bind_eq_some, Option.map_eq_some'] at hp
    obtain ⟨sp, hsp, s', hs', hcs⟩ := hp
    subst hcs
    have hrem₁ : scopeEnd (')' :: '*' :: (s' ++ rem)) := Or.inr ⟨_, rfl⟩
    obtain ⟨f₁, hf₁⟩ := (ihp sp hsp _ hrem₁).2
    have hgen : ∀ acc, ∃ f, parseAtoms f acc ((('(' :: sp ++ [')', '*']) ++ s') ++ rem) =
        some (acc.reverse ++ toks false (some (RegexpTree.kleene (some p) next)), rem) := by
      intro acc
      obtain ⟨f₂, hf₂⟩ := (ihn s' hs' rem hrem).1 rfl
        (SreTok.maxRepeat 0 MAXREPEAT [SreTok.subpattern (toks true (some p))] :: acc)
      refine ⟨(f₁ + f₂) + 1, ?_⟩
      have hstream : (('(' :: sp ++ [')', '*']) ++ s') ++ rem =
          '(' :: (sp ++ (')' :: '*' :: (s' ++ rem))) := by simp
      rw [hstream, parseAtoms, if_neg (by decide : ¬ ('(' = ')')),
        if_neg (by decide : ¬ ('(' = '|')), if_pos rfl]
      have hp' : parseAtoms (f₁ + f₂) [] (sp ++ (')' :: '*' :: (s' ++ rem))) =
          some (toks true (some p), ')' :: '*' :: (s' ++ rem)) :=
        parseAtoms_mono_le f₁ _ (by omega) _ _ _ hf₁
      rw [hp']
      have hAG : parseAfterGroup (parseAtoms (f₁ + f₂)) acc (toks true (some p))
          (')' :: '*' :: (s' ++ rem)) =
          some (acc.reverse ++ toks false (some (RegexpTree.kleene (some p) next)), rem) := by
        rw [parseAfterGroup, if_pos rfl, parsePostfix,
          if_neg (by decide : ¬ ('*' = '?')), if_pos rfl,
          parseAtoms_mono_le f₂ (f₁ + f₂) (by omega) _ _ _ hf₂]
        simp [toks_kleene, List.append_assoc]
      exact hAG
    refine ⟨fun _ => hgen, ?_⟩
    obtain ⟨f, hf⟩ := hgen []
    exact ⟨f, by rw [hf]; simp [toks_kleene]⟩

theorem transGo_main_nil (f m : ℕ) : transGo (f + 1) (TransCall.main [] m) = some none := rfl

theorem transGo_literal (f n : ℕ) (tail : List SreTok) (m : ℕ) :
    transGo (f + 1) (TransCall.main (SreTok.literal n :: tail) m) =
      (transGo f (TransCall.main tail 100)).map
        (fun nxt => some (RegexpTree.single n n nxt)) := rfl

theorem transGo_inTok (f : ℕ) (elems tail : List SreTok) (m : ℕ) :
    transGo (f + 1) (TransCall.main (SreTok.inTok elems :: tail) m) =
      transGo f (TransCall.ivUnion (sre_list_to_interval elems) tail m) := rfl

theorem transGo_sub (f : ℕ) (sub tail : List SreTok) (m : ℕ) :
    transGo (f + 1) (TransCall.main (SreTok.subpattern sub :: tail) m) =
      transGo f (TransCall.main (sub ++ tail) 100) := rfl

theorem transGo_branchTok (f : ℕ) (alts : List (List SreTok)) (tail : List SreTok) (m : ℕ) :
    transGo (f + 1) (TransCall.main (SreTok.branch alts :: tail) m) =
      transGo f (TransCall.sreUnion alts tail m) := rfl

theorem transGo_R01 (f : ℕ) (sub tail : List SreTok) :
    transGo (f + 1) (TransCall.main (SreTok.maxRepeat 0 1 sub :: tail) 100) =
      transGo f (TransCall.main
        (SreTok.branch [[SreTok.maxRepeat 0 0 sub], sub ++ [SreTok.maxRepeat 0 0 sub]] ::
          tail) 100) := rfl

theorem transGo_R00 (sub : List SreTok) :
    transGo 2 (TransCall.main [SreTok.maxRepeat 0 0 sub] 100) = some none := rfl

theorem transGo_RMAX (f : ℕ) (sub tail : List SreTok) :
    transGo (f + 1) (TransCall.main (SreTok.maxRepeat 0 MAXREPEAT sub :: tail) 100) =
      (match transGo f (TransCall.main sub 100), transGo f (TransCall.main tail 100) with
        | some pat, some nxt => some (some (RegexpTree.kleene pat nxt))
        | _, _ => none) := rfl

theorem transGo_ivOne (f mn mx : ℕ) (next : List SreTok) (m : ℕ) :
    transGo (f + 1) (TransCall.ivUnion [(mn, mx)] next m) =
      (transGo f (TransCall.main next m)).map
        (fun nxt => some (RegexpTree.single mn mx nxt)) := rfl

theorem transGo_sre1 (f : ℕ) (a next : List SreTok) (m : ℕ) :
    transGo (f + 1) (TransCall.sreUnion [a] next m) =
      transGo f (TransCall.main a m) := rfl

theorem transGo_sre2 (f : ℕ) (a1 a2 next : List SreTok) (m : ℕ) :
    transGo (f + 1) (TransCall.sreUnion [a1, a2] next m) =
      (match transGo f (TransCall.main a1 m), transGo f (TransCall.sreUnion [a2] [] m),
          transGo f (TransCall.main next m) with
        | some fstB, some sndB, some nextB =>
          (match fstB, sndB with
            | none, none => some nextB
            | _, _ => some (some (RegexpTree.union fstB sndB nextB)))
        | _, _, _ => none) := rfl

theorem tagSeq_some_of_ne (r : Option RegexpTree) (h : tagSeq r ≠ []) : ∃ t, r = some t := by
  cases r with
  | none => exact absurd (by rw [tagSeq]) h
  | some t => exact ⟨t, rfl⟩

/-- Translating a well-formed tree's structural tokens in front of any
translatable continuation yields a tree whose tag sequence prepends the
original tree's tags to the continuation's. -/
theorem trans_toks {b : Bool} {r : Option RegexpTree} (hwf : Wf b r) :
    ∀ f rest rtail, transGo f (TransCall.main rest 100) = some rtail →
      ∃ g t', transGo g (TransCall.main (toks b r ++ rest) 100) = some t' ∧
        tagSeq t' = tagSeq r ++ tagSeq rtail := by
  induction hwf with
  | wnone b =>
    intro f rest rtail h
    refine ⟨f, rtail, ?_, by rw [tagSeq]; rfl⟩
    rw [toks_none, List.nil_append]
    exact h
  | wchar b mn next hsafe hnext ih =>
    intro f rest rtail h
    obtain ⟨g, t_n, hg, htag⟩ := ih f rest rtail h
    refine ⟨g + 1, some (RegexpTree.single mn mn t_n), ?_, ?_⟩
    · rw [toks_single]
      rw [if_pos rfl, List.cons_append, transGo_literal, hg]
      rfl
    · rw [tagSeq, tagSeq, htag]
      rfl
  | wrange b mn mx next hlt hs1 hs2 hnext ih =>
    intro f rest rtail h
    obtain ⟨g, t_n, hg, htag⟩ := ih f rest rtail h
    refine ⟨g + 2, some (RegexpTree.single mn mx t_n), ?_, ?_⟩
    · rw [toks_single, if_neg (by omega : ¬ mn = mx), List.cons_append, transGo_inTok,
        sre_in_interval_range mn mx (le_of_lt hlt), transGo_ivOne, hg]
      rfl
    · rw [tagSeq, tagSeq, htag]
      rfl
  | wopt1 b x next hx hnext ihx ihn =>
    intro f rest rtail h
    obtain ⟨g_n, t_n, hgn, htagn⟩ := ihn f rest rtail h
    obtain ⟨g_x, t_x, hgx, htagx⟩ := ihx 2 [SreTok.maxRepeat 0 0
      [SreTok.subpattern (toks true (some x))]] none (transGo_R00 _)
    obtain ⟨x', rfl⟩ := tagSeq_some_of_ne t_x (by
      rw [htagx]
      simp [tagSeq_ne_nil x, tagSeq])
    refine ⟨(g_x + g_n) + 6, some (RegexpTree.union none (some x') t_n), ?_, ?_⟩
    · rw [toks_union1, List.cons_append, transGo_R01, transGo_branchTok, transGo_sre2]
      simp only [List.singleton_append]
      have h1 : transGo (g_x + g_n + 3)
          (TransCall.main [SreTok.maxRepeat 0 0
            [SreTok.subpattern (toks true (some x))]] 100) = some none :=
        transGo_mono_le 2 _ (by omega) _ _ (transGo_R00 _)
      have h2 : transGo (g_x + 2) (TransCall.sreUnion
          [SreTok.subpattern (toks true (some x)) ::
            [SreTok.maxRepeat 0 0 [SreTok.subpattern (toks true (some x))]]] [] 100) =
          some (some x') := by
        rw [transGo_sre1, transGo_sub]
        exact hgx
      have h3 : transGo (g_x + g_n + 3) (TransCall.sreUnion
          [SreTok.subpattern (toks true (some x)) ::
            [SreTok.maxRepeat 0 0 [SreTok.subpattern (toks true (some x))]]] [] 100) =
          some (some x') := transGo_mono_le (g_x + 2) _ (by omega) _ _ h2
      have h4 : transGo (g_x + g_n + 3) (TransCall.main (toks false next ++ rest) 100) =
          some t_n := transGo_mono_le g_n _ (by omega) _ _ hgn
      rw [h1, h3, h4]
    · have hx2 : tagSeq (some x') = tagSeq (some x) := by
        rw [htagx]
        simp [tagSeq]
      simp only [tagSeq, hx2, htagn]
      simp [List.append_assoc]
  | wopt2 b x next hx hnext ihx ihn =>
    intro f rest rtail h
    obtain ⟨g_n, t_n, hgn, htagn⟩ := ihn f rest rtail h
    obtain ⟨g_x, t_x, hgx, htagx⟩ := ihx 2 [SreTok.maxRepeat 0 0
      [SreTok.subpattern (toks true (some x))]] none (transGo_R00 _)
    obtain ⟨x', rfl⟩ := tagSeq_some_of_ne t_x (by
      rw [htagx]
      simp [tagSeq_ne_nil x, tagSeq])
    refine ⟨(g_x + g_n) + 6, some (RegexpTree.union none (some x') t_n), ?_, ?_⟩
    · rw [toks_union2, List.cons_append, transGo_R01, transGo_branchTok, transGo_sre2]
      simp only [List.singleton_append]
      have h1 : transGo (g_x + g_n + 3)
          (TransCall.main [SreTok.maxRepeat 0 0
            [SreTok.subpattern (toks true (some x))]] 100) = some none :=
        transGo_mono_le 2 _ (by omega) _ _ (transGo_R00 _)
      have h2 : transGo (g_x + 2) (TransCall.sreUnion
          [SreTok.subpattern (toks true (some x)) ::
            [SreTok.maxRepeat 0 0 [SreTok.subpattern (toks true (some x))]]] [] 100) =
          some (some x') := by
        rw [transGo_sre1, transGo_sub]
        exact hgx
      have h3 : transGo (g_x + g_n + 3) (TransCall.sreUnion
          [SreTok.subpattern (toks true (some x)) ::
            [SreTok.maxRepeat 0 0 [SreTok.subpattern (toks true (some x))]]] [] 100) =
          some (some x') := transGo_mono_le (g_x + 2) _ (by omega) _ _ h2
      have h4 : transGo (g_x + g_n + 3) (TransCall.main (toks false next ++ rest) 100) =
          some t_n := transGo_mono_le g_n _ (by omega) _ _ hgn
      rw [h1, h3, h4]
    · have hx2 : tagSeq (some x') = tagSeq (some x) := by
        rw [htagx]
        simp [tagSeq]
      simp only [tagSeq, hx2, htagn]
      simp [List.append_assoc]
  | wboth x y next hx hy hnext ihx ihy ihn =>
    intro f rest rtail h
    obtain ⟨g_x, t_x, hgx, htagx⟩ := ihx 1 [] none rfl
    obtain ⟨x', rfl⟩ := tagSeq_some_of_ne t_x (by
      rw [htagx]
      simp [tagSeq_ne_nil x, tagSeq])
    obtain ⟨g_n, t_n, hgn, htagn⟩ := ihn 1 [] none rfl
    obtain ⟨g_y, t_y, hgy, htagy⟩ := ihy g_n (toks false next) t_n (by
      simpa using hgn)
    refine ⟨(g_x + g_y) + f + 4, some (RegexpTree.union (some x') t_y rtail), ?_, ?_⟩
    · have hsteq : toks true (some (RegexpTree.union (some x) (some y) next)) ++ rest =
          SreTok.branch [[SreTok.subpattern (toks true (some x))],
            SreTok.subpattern (toks true (some y)) :: toks false next] :: rest := by
        rw [toks]
        rfl
      rw [hsteq, transGo_branchTok, transGo_sre2]
      have h1 : transGo (g_x + 1)
          (TransCall.main [SreTok.subpattern (toks true (some x))] 100) = some (some x') := by
        rw [transGo_sub]
        exact hgx
      have h1' : transGo (g_x + g_y + f + 2)
          (TransCall.main [SreTok.subpattern (toks true (some x))] 100) = some (some x') :=
        transGo_mono_le (g_x + 1) _ (by omega) _ _ h1
      have h2 : transGo (g_y + 2) (TransCall.sreUnion
          [SreTok.subpattern (toks true (some y)) :: toks false next] [] 100) =
          some t_y := by
        rw [transGo_sre1, transGo_sub]
        exact hgy
      have h2' : transGo (g_x + g_y + f + 2) (TransCall.sreUnion
          [SreTok.subpattern (toks true (some y)) :: toks false next] [] 100) =
          some t_y := transGo_mono_le (g_y + 2) _ (by omega) _ _ h2
      have h3 : transGo (g_x + g_y + f + 2) (TransCall.main rest 100) = some rtail :=
        transGo_mono_le f _ (by omega) _ _ h
      rw [h1', h2', h3]
    · have htagx' : tagSeq (some x') = tagSeq (some x) := by
        rw [htagx]
        simp [tagSeq]
      have htagn' : tagSeq t_n = tagSeq next := by
        rw [htagn]
        simp [tagSeq]
      simp only [tagSeq, htagx', htagy, htagn']
      simp [List.append_assoc]
  | wkleene b p next hpp hnext ihp ihn =>
    intro f rest rtail h
    obtain ⟨g_n, t_n, hgn, htagn⟩ := ihn f rest rtail h
    obtain ⟨g_p, t_p, hgp, htagp⟩ := ihp 1 [] none rfl
    refine ⟨(g_p + g_n) + 2, some (RegexpTree.kleene t_p t_n), ?_, ?_⟩
    · rw [toks_kleene, List.cons_append, transGo_RMAX]
      have h1 : transGo (g_p + g_n + 1)
          (TransCall.main [SreTok.subpattern (toks true (some p))] 100) = some t_p := by
        rw [transGo_sub]
        exact transGo_mono_le g_p _ (by omega) _ _ hgp
      have h2 : transGo (g_p + g_n + 1) (TransCall.main (toks false next ++ rest) 100) =
          some t_n := transGo_mono_le g_n _ (by omega) _ _ hgn
      rw [h1, h2]
    · have htagp' : tagSeq t_p = tagSeq (some p) := by
        rw [htagp]
        simp [tagSeq]
      simp only [tagSeq, htagp', htagn]
      simp [List.append_assoc]

/-- C8 (corrected): the claim fails as stated — printing crashes on a
union with both branches absent, and a bare alternation in the printed
text absorbs a preceding atom on retranslation, changing the tag sequence
(counterexamples in print_retranslate_cex). For the well-formed class Wf
(printable nodes, safe code points, ordered ranges, and two-branch unions
only at the head of their concatenation scope), the round-trip is
structurally faithful: printing succeeds and retranslating the printed
form yields a tree with the same tag sequence. -/
theorem printed_tree_roundtrip (t : RegexpTree) (hwf : Wf true (some t)) :
    ∃ f s t', print_regexp t = some s ∧ retranslate f s = some (some t') ∧
      tagSeq (some t') = tagSeq (some t) := by
  obtain ⟨cs, hp⟩ := printL_some hwf
  obtain ⟨f₁, hparse⟩ := (parse_print hwf cs hp [] (Or.inl rfl)).2
  rw [List.append_nil] at hparse
  obtain ⟨g, t'', htrans, htag⟩ := trans_toks hwf 1 [] none rfl
  rw [List.append_nil] at htrans
  have htag' : tagSeq t'' = tagSeq (some t) := by
    rw [htag]
    simp [tagSeq]
  obtain ⟨t', rfl⟩ := tagSeq_some_of_ne t'' (by rw [htag']; exact tagSeq_ne_nil t)
  refine ⟨f₁ + g, String.mk cs, t', ?_, ?_, htag'⟩
  · rw [print_regexp, hp]
    rfl
  · have hpa : parseAtoms (f₁ + g) [] cs = some (toks true (some t), []) :=
      parseAtoms_mono_le f₁ _ (by omega) _ _ _ hparse
    have hsp : sreParse (f₁ + g) (String.mk cs) = some (toks true (some t)) := by
      rw [sreParse]
      rw [show (String.mk cs).data = cs from rfl, hpa]
    rw [retranslate, hsp]
    show sre_to_regexp_tree (f₁ + g) (toks true (some t)) 100 = some (some t')
    rw [sre_to_regexp_tree]
    exact transGo_mono_le g _ (by omega) _ _ htrans

theorem printed_tree_roundtrip_witness :
    Wf true (some (RegexpTree.single 97 97 none)) ∧
    ∃ f s t', print_regexp (RegexpTree.single 97 97 none) = some s ∧
      retranslate f s = some (some t') ∧
      tagSeq (some t') = tagSeq (some (RegexpTree.single 97 97 none)) := by
  have hwf : Wf true (some (RegexpTree.single 97 97 none)) :=
    Wf.wchar true 97 none ⟨by decide, by decide⟩ (Wf.wnone false)
  exact ⟨hwf, printed_tree_roundtrip (RegexpTree.single 97 97 none) hwf⟩

end LexPar
